import Mathlib

/-!
Verification of the grid/pathfinding/pursuit engine of Tower Trek
(`tower_trek.py`).

The development shallowly embeds the core of the source file:
`Grid.is_valid_move`, `Grid.get_neighbors`, `Grid.is_path_exists` (BFS),
`Grid.find_path` (A* over a `heapq` priority queue), `Grid.heuristic`,
`Grid.generate_grid` (randomized obstacle placement with a solvability
re-check) and `TowerTrek.move_ai` (the pursuer update with its greedy and
random fallbacks).  Python's unbounded loops are modelled with explicit
fuel that provably suffices, its random number generator is modelled by
explicit input streams (a list of candidate obstacle positions, and
natural-number indices for `random.choice`), and its `heapq` is modelled
by selection of the lexicographically least `(f, (x, y))` entry, which is
extensionally the behaviour of `heapq` on the distinct tuples the
algorithm stores.  Machine integers are modelled by `Int` (Python
integers are unbounded, so no wrap-around is involved).
-/

/-- Grid coordinates `(x, y)`, exactly the tuples used by the Python code. -/
abbrev Pos : Type := Int × Int

/-- The `Grid` class: dimensions, the obstacle flags of the cell matrix
(`cells[x][y].is_obstacle`), and the three tracked positions.  The purely
cosmetic `is_start` / `is_goal` cell flags are not queried by any of the
game logic embedded here and are omitted. -/
structure Grid where
  width : Int
  height : Int
  obstacle : Pos → Bool
  player_pos : Pos
  ai_pos : Pos
  goal_pos : Pos

/-- Embedding of `Grid.is_valid_move`: in bounds and not an obstacle. -/
def is_valid_move (g : Grid) (pos : Pos) : Bool :=
  if pos.1 < 0 ∨ g.width ≤ pos.1 ∨ pos.2 < 0 ∨ g.height ≤ pos.2 then false
  else if g.obstacle pos then false
  else true

/-- Embedding of `Grid.get_neighbors`: the four cardinal directions in the fixed order
up, right, down, left, keeping the valid ones (appending to the result
list exactly as the Python loop does). -/
def get_neighbors (g : Grid) (pos : Pos) : List Pos :=
  [((0 : Int), (-1 : Int)), (1, 0), (0, 1), (-1, 0)].foldl
    (fun acc d =>
      let np : Pos := (pos.1 + d.1, pos.2 + d.2)
      if is_valid_move g np then acc ++ [np] else acc) []

/-- Embedding of `Grid.heuristic`: Manhattan distance (the Python float value is always
a non-negative integer here). -/
def heuristic (a b : Pos) : Nat :=
  (a.1 - b.1).natAbs + (a.2 - b.2).natAbs

/-- The body of the `for neighbor in self.get_neighbors(current)` loop of
`Grid.is_path_exists`: mark unvisited neighbours visited and append them
to the queue. -/
def bfsStep (vq : List Pos × List Pos) (n : Pos) : List Pos × List Pos :=
  if n ∈ vq.1 then vq else (n :: vq.1, vq.2 ++ [n])

/-- The loop of `Grid.is_path_exists`: FIFO queue BFS with a visited set.
`fuel` bounds the iterations; the fuel chosen by `is_path_exists` provably
suffices, so the `fuel = 0` branch is never reached. -/
def bfsLoop (g : Grid) (e : Pos) : Nat → List Pos → List Pos → Bool
  | 0, _, _ => false
  | fuel + 1, visited, queue =>
    match queue with
    | [] => false
    | cur :: rest =>
      if cur = e then true
      else
        let vq := (get_neighbors g cur).foldl bfsStep (visited, rest)
        bfsLoop g e fuel vq.1 vq.2

/-- Embedding of `Grid.is_path_exists`: BFS reachability check. -/
def is_path_exists (g : Grid) (s e : Pos) : Bool :=
  if s = e then true
  else bfsLoop g e (g.width.toNat * g.height.toNat + 2) [s] [s]

/-- Association-list lookup, modelling a Python dict read. -/
def alookup {α : Type} : List (Pos × α) → Pos → Option α
  | [], _ => none
  | (k, v) :: l, p => if p = k then some v else alookup l p

/-- Association-list store, modelling a Python dict write. -/
def aupdate {α : Type} : List (Pos × α) → Pos → α → List (Pos × α)
  | [], p, v => [(p, v)]
  | (k, w) :: l, p, v =>
    if k = p then (p, v) :: l else (k, w) :: aupdate l p v

/-- Strict lexicographic comparison of `(f_score, (x, y))` heap entries:
exactly Python's tuple `<` used by `heapq`. -/
def pairLt (a b : Nat × Pos) : Bool :=
  decide (a.1 < b.1) ||
    (decide (a.1 = b.1) &&
      (decide (a.2.1 < b.2.1) ||
        (decide (a.2.1 = b.2.1) && decide (a.2.2 < b.2.2))))

/-- Model of `heapq.heappop`: removes the least `(f, position)` entry.  The
algorithm never stores two entries with the same position, so selecting
the (leftmost) minimum is extensionally `heappop`. -/
def popMin : List (Nat × Pos) → Option ((Nat × Pos) × List (Nat × Pos))
  | [] => none
  | a :: l =>
    match popMin l with
    | none => some (a, [])
    | some (m, r) => if pairLt m a then some (m, a :: r) else some (a, l)

/-- Membership of a position in the open set, modelling the Python check
`neighbor not in [item[1] for item in open_set]`. -/
def containsPos (l : List (Nat × Pos)) (p : Pos) : Bool :=
  l.any fun it => decide (it.2 = p)

/-- The mutable state of `Grid.find_path`, plus bookkeeping traces of
every heap push and pop (the traces record what the code does; they do
not influence it). -/
structure AState where
  openSet : List (Nat × Pos)
  cameFrom : List (Pos × Pos)
  gScore : List (Pos × Nat)
  fScore : List (Pos × Nat)
  closed : List Pos
  pops : List (Nat × Pos)
  pushes : List (Nat × Pos)

/-- The body of the `for neighbor in self.get_neighbors(current)` loop of
`Grid.find_path`. -/
def relaxOne (g : Grid) (e cur : Pos) (st : AState) (n : Pos) : AState :=
  if n ∈ st.closed then st
  else
    let t := (alookup st.gScore cur).getD 0 + 1
    let improve :=
      match alookup st.gScore n with
      | none => true
      | some gn => decide (t < gn)
    if improve then
      let fn := t + heuristic n e
      { st with
        cameFrom := aupdate st.cameFrom n cur
        gScore := aupdate st.gScore n t
        fScore := aupdate st.fScore n fn
        openSet :=
          if containsPos st.openSet n then st.openSet
          else st.openSet ++ [(fn, n)]
        pushes :=
          if containsPos st.openSet n then st.pushes
          else st.pushes ++ [(fn, n)] }
    else st

/-- Path reconstruction of `Grid.find_path`: walk `came_from` back from
the target and reverse.  `fuel` bounds the walk; the call site passes
`came_from.length + 1`, which provably suffices because `g_score` strictly
decreases along `came_from`. -/
def reconstruct (cf : List (Pos × Pos)) : Nat → Pos → List Pos
  | 0, _ => []
  | fuel + 1, cur =>
    match alookup cf cur with
    | none => []
    | some prev => reconstruct cf fuel prev ++ [cur]

/-- The `while open_set` loop of `Grid.find_path`.  Returns the produced
path together with the final state (for the push/pop traces). -/
def astarLoop (g : Grid) (e : Pos) : Nat → AState → List Pos × AState
  | 0, st => ([], st)
  | fuel + 1, st =>
    match popMin st.openSet with
    | none => ([], st)
    | some (fc, rest) =>
      let st' := { st with openSet := rest, pops := st.pops ++ [fc] }
      if fc.2 = e then
        (reconstruct st'.cameFrom (st'.cameFrom.length + 1) fc.2, st')
      else
        let st'' := { st' with closed := fc.2 :: st'.closed }
        astarLoop g e fuel
          ((get_neighbors g fc.2).foldl (relaxOne g e fc.2) st'')

/-- The initial A* state of `Grid.find_path`: `heappush(open_set, (0,
start))`, `g_score = {start: 0}`, `f_score = {start: heuristic(start,
end)}`. -/
def initAState (s e : Pos) : AState :=
  { openSet := [(0, s)], cameFrom := [], gScore := [(s, 0)],
    fScore := [(s, heuristic s e)], closed := [], pops := [],
    pushes := [(0, s)] }

/-- Embedding of `Grid.find_path` together with its final search state. -/
def find_path_run (g : Grid) (s e : Pos) : List Pos × AState :=
  if s = e then ([s], initAState s e)
  else astarLoop g e (g.width.toNat * g.height.toNat + 2) (initAState s e)

/-- Embedding of `Grid.find_path`: A* shortest-path search. -/
def find_path (g : Grid) (s e : Pos) : List Pos :=
  (find_path_run g s e).1

/-- Outcome of a pursuer turn, the spec's `Moved` / `Captured` / `Stalled`
abstraction of `TowerTrek.move_ai` (the code signals capture by calling
`game_over`, stalling by the `AI couldn't move` branch, and otherwise just
moves). -/
inductive MoveOutcome
  | moved
  | captured
  | stalled
deriving DecidableEq

/-- Model of `random.choice` on a non-empty list, driven by an explicit index `r`;
as `r` ranges over all naturals every element can be chosen. -/
def randChoice (l : List Pos) (d : Pos) (r : Nat) : Pos :=
  l.getD (r % l.length) d

/-- The `possible_moves` list of the greedy fallback of
`TowerTrek.move_ai`: the horizontal candidate that reduces the x gap (if
any and valid), followed by the vertical candidate that reduces the y gap
(if any and valid), mirroring the two if/elif pairs of the source. -/
def greedy_moves (g : Grid) : List Pos :=
  (if g.ai_pos.1 < g.player_pos.1 then
      (if is_valid_move g (g.ai_pos.1 + 1, g.ai_pos.2) then
        [(g.ai_pos.1 + 1, g.ai_pos.2)] else [])
    else if g.player_pos.1 < g.ai_pos.1 then
      (if is_valid_move g (g.ai_pos.1 - 1, g.ai_pos.2) then
        [(g.ai_pos.1 - 1, g.ai_pos.2)] else [])
    else []) ++
  (if g.ai_pos.2 < g.player_pos.2 then
      (if is_valid_move g (g.ai_pos.1, g.ai_pos.2 + 1) then
        [(g.ai_pos.1, g.ai_pos.2 + 1)] else [])
    else if g.player_pos.2 < g.ai_pos.2 then
      (if is_valid_move g (g.ai_pos.1, g.ai_pos.2 - 1) then
        [(g.ai_pos.1, g.ai_pos.2 - 1)] else [])
    else [])

/-- Embedding of `TowerTrek.move_ai`: the pursuer update.  `r1` drives the
`random.choice` among the greedy direct moves, `r2` the one among all
valid neighbors.  Returns the outcome and the grid with the updated
`ai_pos`. -/
def move_ai (g : Grid) (r1 r2 : Nat) : MoveOutcome × Grid :=
  if g.ai_pos = g.player_pos then (MoveOutcome.captured, g)
  else
    match find_path g g.ai_pos g.player_pos with
    | p0 :: _ =>
      (if p0 = g.player_pos then MoveOutcome.captured else MoveOutcome.moved,
        { g with ai_pos := p0 })
    | [] =>
      match greedy_moves g with
      | m :: _ =>
        (if randChoice (greedy_moves g) m r1 = g.player_pos then
            MoveOutcome.captured
          else MoveOutcome.moved,
          { g with ai_pos := randChoice (greedy_moves g) m r1 })
      | [] =>
        match get_neighbors g g.ai_pos with
        | n :: _ =>
          (if randChoice (get_neighbors g g.ai_pos) n r2 = g.player_pos then
              MoveOutcome.captured
            else MoveOutcome.moved,
            { g with ai_pos := randChoice (get_neighbors g g.ai_pos) n r2 })
        | [] => (MoveOutcome.stalled, g)

/-- The three difficulty levels. -/
inductive Difficulty
  | EASY
  | MEDIUM
  | HARD
deriving DecidableEq

/-- The difficulty-to-density table of `generate_grid` (the Python floats
`0.15`, `0.25`, `0.35` as exact rationals; all three lie in `[0, 1)`,
which is the only fact about them any claim needs). -/
def obstacle_percentage : Difficulty → ℚ
  | Difficulty.EASY => 15 / 100
  | Difficulty.MEDIUM => 25 / 100
  | Difficulty.HARD => 35 / 100

/-- Set the obstacle flag of one cell. -/
def setObstacle (g : Grid) (p : Pos) : Grid :=
  { g with obstacle := fun q => if q = p then true else g.obstacle q }

/-- One iteration of the obstacle-placement loop of `Grid.generate_grid`
for the sampled coordinate `p`: skip start/goal/player/AI cells and
existing obstacles, otherwise place tentatively and keep the obstacle only
if a player-to-goal path still exists (the failed tentative placement is
rolled back, leaving the grid extensionally unchanged).  Returns the new
grid and whether an obstacle was committed. -/
def placeStep (g : Grid) (p : Pos) : Grid × Bool :=
  if p = ((0 : Int), (0 : Int)) ∨ p = (g.width - 1, 0) ∨ p = g.player_pos ∨
      p = g.ai_pos then (g, false)
  else if g.obstacle p then (g, false)
  else if is_path_exists (setObstacle g p) g.player_pos g.goal_pos then
    (setObstacle g p, true)
  else (g, false)

/-- The `while obstacles_placed < num_obstacles` loop of
`Grid.generate_grid`, driven by the stream `samples` of random
coordinates.  The Python loop draws random samples forever; a finite
`samples` list models a prefix of that stream (if it is exhausted early
the state reached so far is returned). -/
def genLoop (target : Nat) : Nat → Grid → List Pos → Grid
  | _, g, [] => g
  | placed, g, p :: ps =>
    if placed < target then
      let r := placeStep g p
      genLoop target (if r.2 then placed + 1 else placed) r.1 ps
    else g

/-- Embedding of `Grid.generate_grid`: fixes `player_pos = (0, height-1)`,
`ai_pos = (width-1, height-1)`, `goal_pos = (width-1, 0)` and runs the
obstacle-placement loop.  `target` is `num_obstacles` (in the source,
`int(width * height * obstacle_percentage[difficulty])`); the theorems
below hold for every `target`, hence for all three difficulty
densities. -/
def initGrid (w h : Int) : Grid :=
  { width := w, height := h, obstacle := fun _ => false,
    player_pos := (0, h - 1), ai_pos := (w - 1, h - 1),
    goal_pos := (w - 1, 0) }

def generate_grid (w h : Int) (target : Nat) (samples : List Pos) : Grid :=
  genLoop target 0 (initGrid w h) samples

/-- Embedding of `Grid.__init__`: building the cell matrix succeeds for any dimensions,
but `generate_grid` immediately executes `self.cells[0][0].is_start =
True`, which raises an uncaught `IndexError` when `width <= 0` (then
`cells == []`) or `height <= 0` (then `cells[0] == []`), so construction
fails with the error surfaced to the caller exactly when a dimension is
non-positive. -/
def gridInit (w h : Int) (target : Nat) (samples : List Pos) :
    Except String Grid :=
  if w ≤ 0 then Except.error "IndexError: list index out of range"
  else if h ≤ 0 then Except.error "IndexError: list index out of range"
  else Except.ok (generate_grid w h target samples)

/-- Two cells are cardinally adjacent: Manhattan distance exactly one
(rules out both diagonal neighbours and staying in place). -/
def isCardinalAdjacent (a b : Pos) : Prop :=
  (a.1 - b.1).natAbs + (a.2 - b.2).natAbs = 1

/-- One walkable step of the 4-neighbour relation used by the search
routines. -/
def adjStep (g : Grid) (a b : Pos) : Prop :=
  b ∈ get_neighbors g a

/-- A finite walkable path exists (reflexive-transitive closure of
`adjStep`): the ground-truth reachability notion the BFS and A* routines
are measured against. -/
def Reach (g : Grid) : Pos → Pos → Prop :=
  Relation.ReflTransGen (adjStep g)

/-- Walkable in exactly `n` unit steps. -/
def ReachN (g : Grid) : Nat → Pos → Pos → Prop
  | 0, a, b => a = b
  | n + 1, a, b => ∃ c ∈ get_neighbors g a, ReachN g n c b

instance ReachN.decidable (g : Grid) :
    (n : Nat) → (a b : Pos) → Decidable (ReachN g n a b)
  | 0, a, b => inferInstanceAs (Decidable (a = b))
  | n + 1, a, b =>
    have : ∀ c, Decidable (ReachN g n c b) := fun c =>
      ReachN.decidable g n c b
    inferInstanceAs (Decidable (∃ c ∈ get_neighbors g a, ReachN g n c b))

/-- The BFS shortest-path distance of the spec: `n` is the least number of
unit steps of the 4-neighbour relation from `a` to `b`. -/
def IsShortestDistance (g : Grid) (a b : Pos) (n : Nat) : Prop :=
  ReachN g n a b ∧ ∀ m < n, ¬ ReachN g m a b

/-- Index of the first pop of position `p` in a pop trace (the trace
length if `p` is never popped). -/
def popIdx (τ : List (Nat × Pos)) (p : Pos) : Nat :=
  τ.findIdx fun it => decide (it.2 = p)

/-- Claim C4 as stated: in the `find_path` run from `s` to `e`, whenever
two entries of the priority structure were inserted with equal `f`-score,
the earlier-inserted one is popped (processed) no later than the other. -/
def C4DiscoveryOrder (g : Grid) (s e : Pos) : Prop :=
  ∀ j : Nat, j < (find_path_run g s e).2.pushes.length → ∀ i : Nat, i < j →
    ((find_path_run g s e).2.pushes.getD i (0, (0, 0))).1 =
        ((find_path_run g s e).2.pushes.getD j (0, (0, 0))).1 →
    popIdx (find_path_run g s e).2.pops
        ((find_path_run g s e).2.pushes.getD i (0, (0, 0))).2 ≤
      popIdx (find_path_run g s e).2.pops
        ((find_path_run g s e).2.pushes.getD j (0, (0, 0))).2

/-- Claim C2 as stated: `find_path` is empty iff `is_path_exists` is
false, and a non-empty result has length equal to the BFS shortest-path
distance. -/
def C2Claim (g : Grid) (a b : Pos) : Prop :=
  (find_path g a b = [] ↔ is_path_exists g a b = false) ∧
    ∀ n, IsShortestDistance g a b n → find_path g a b ≠ [] →
      (find_path g a b).length = n

/-- Strict lexicographic order on positions (Python tuple comparison). -/
def posLexLt (p q : Pos) : Prop :=
  p.1 < q.1 ∨ (p.1 = q.1 ∧ p.2 < q.2)

/-- The concrete counterexample grid for claim C2: a 5 by 4 board with
obstacles at `(1,1)`, `(1,2)` and `(3,2)`. -/
def cexGridC2 : Grid :=
  { width := 5, height := 4,
    obstacle := fun p =>
      decide (p = ((1 : Int), (1 : Int))) || decide (p = (1, 2)) ||
        decide (p = (3, 2)),
    player_pos := (0, 3), ai_pos := (4, 3), goal_pos := (4, 0) }

/-- An empty (obstacle-free) 3 by 3 grid, used for the C4
counterexample. -/
def emptyGrid3 : Grid :=
  { width := 3, height := 3, obstacle := fun _ => false,
    player_pos := (0, 2), ai_pos := (2, 2), goal_pos := (2, 0) }

/-- An empty 10 by 10 grid with the pursuer at `(9,9)` and the player at
`(0,0)` (claim C8). -/
def emptyGrid10 : Grid :=
  { width := 10, height := 10, obstacle := fun _ => false,
    player_pos := (0, 0), ai_pos := (9, 9), goal_pos := (9, 0) }

/-- A fully obstructed 3 by 3 grid (every cell an obstacle), used as a
concrete state for tie-break witnesses. -/
def blockedGrid3 : Grid :=
  { width := 3, height := 3, obstacle := fun _ => true,
    player_pos := (0, 2), ai_pos := (2, 2), goal_pos := (2, 0) }

/-- The set of in-bounds non-obstacle cells of a grid, the proof-side
bound on how many nodes the searches can visit. -/
def allValid (g : Grid) : Finset Pos :=
  (Finset.Icc (0 : Int) (g.width - 1) ×ˢ Finset.Icc (0 : Int) (g.height - 1)).filter
    fun p => g.obstacle p = false

/-- Termination measure of the BFS loop. -/
def bfsMeasure (g : Grid) (visited queue : List Pos) : Nat :=
  ((allValid g).filter fun p => p ∉ visited).card + queue.length

/-- Termination measure of the A* loop. -/
def aMeasure (g : Grid) (st : AState) : Nat :=
  ((allValid g).filter fun p => alookup st.gScore p = none).card +
    st.openSet.length

/-! ### Basic facts about `is_valid_move` and `get_neighbors` -/

theorem is_valid_move_iff (g : Grid) (p : Pos) :
    is_valid_move g p = true ↔
      0 ≤ p.1 ∧ p.1 < g.width ∧ 0 ≤ p.2 ∧ p.2 < g.height ∧
        g.obstacle p = false := by
  unfold is_valid_move
  split_ifs with h1 h2 <;> simp_all <;> omega

theorem get_neighbors_eq_filter (g : Grid) (p : Pos) :
    get_neighbors g p =
      List.filter (fun q => is_valid_move g q)
        [(p.1, p.2 - 1), (p.1 + 1, p.2), (p.1, p.2 + 1), (p.1 - 1, p.2)] := by
  simp only [get_neighbors, List.foldl, List.filter, Int.add_zero,
    Int.sub_eq_add_neg]
  cases h1 : is_valid_move g (p.1, p.2 + -1) <;>
    cases h2 : is_valid_move g (p.1 + 1, p.2) <;>
      cases h3 : is_valid_move g (p.1, p.2 + 1) <;>
        cases h4 : is_valid_move g (p.1 + -1, p.2) <;>
          simp [h1, h2, h3, h4]

theorem mem_get_neighbors (g : Grid) (p q : Pos) :
    q ∈ get_neighbors g p ↔
      is_valid_move g q = true ∧
        (q = (p.1, p.2 - 1) ∨ q = (p.1 + 1, p.2) ∨ q = (p.1, p.2 + 1) ∨
          q = (p.1 - 1, p.2)) := by
  rw [get_neighbors_eq_filter]
  simp only [List.mem_filter, List.mem_cons, List.not_mem_nil, or_false]
  tauto

theorem valid_of_mem_get_neighbors {g : Grid} {p q : Pos}
    (h : q ∈ get_neighbors g p) : is_valid_move g q = true :=
  ((mem_get_neighbors g p q).1 h).1

theorem adj_of_mem_get_neighbors {g : Grid} {p q : Pos}
    (h : q ∈ get_neighbors g p) : isCardinalAdjacent p q := by
  rcases (mem_get_neighbors g p q).1 h with ⟨-, h | h | h | h⟩ <;>
    subst h <;> simp [isCardinalAdjacent] <;> omega

theorem not_self_mem_get_neighbors (g : Grid) (p : Pos) :
    p ∉ get_neighbors g p := by
  intro h
  have := adj_of_mem_get_neighbors h
  simp [isCardinalAdjacent] at this

/-! ### `Reach` and `ReachN` -/

theorem reachN_snoc {g : Grid} {a b b' : Pos} {n : Nat}
    (h : ReachN g n a b) (hb : b' ∈ get_neighbors g b) :
    ReachN g (n + 1) a b' := by
  induction n generalizing a with
  | zero => exact ⟨b', by simpa [ReachN] using h ▸ hb, rfl⟩
  | succ n ih =>
    obtain ⟨c, hc, hr⟩ := h
    exact ⟨c, hc, ih hr⟩

theorem reach_iff_reachN (g : Grid) (a b : Pos) :
    Reach g a b ↔ ∃ n, ReachN g n a b := by
  constructor
  · intro h
    induction h with
    | refl => exact ⟨0, rfl⟩
    | tail _ hstep ih =>
      obtain ⟨n, hn⟩ := ih
      exact ⟨n + 1, reachN_snoc hn hstep⟩
  · rintro ⟨n, hn⟩
    induction n generalizing a with
    | zero => simpa [ReachN] using hn ▸ Relation.ReflTransGen.refl
    | succ n ih =>
      obtain ⟨c, hc, hr⟩ := hn
      exact Relation.ReflTransGen.head hc (ih c hr)

theorem reach_step {g : Grid} {a b : Pos} (h : b ∈ get_neighbors g a) :
    Reach g a b :=
  Relation.ReflTransGen.single h

theorem shortest_le_of_reachN {g : Grid} {a b : Pos} {n m : Nat}
    (hs : IsShortestDistance g a b n) (hm : ReachN g m a b) : n ≤ m := by
  by_contra hlt
  exact hs.2 m (by omega) hm

theorem chain_reachN (g : Grid) :
    ∀ (l : List Pos) (s t : Pos),
      List.Chain' (fun a b => b ∈ get_neighbors g a) (s :: l) →
      l.getLast? = some t → ReachN g l.length s t := by
  intro l
  induction l with
  | nil => intro s t _ h; simp at h
  | cons x xs ih =>
    intro s t hch hlast
    have hstep : x ∈ get_neighbors g s := (List.chain'_cons.1 hch).1
    have hch' : List.Chain' (fun a b => b ∈ get_neighbors g a) (x :: xs) :=
      (List.chain'_cons.1 hch).2
    cases xs with
    | nil =>
      simp at hlast
      subst hlast
      exact ⟨x, hstep, rfl⟩
    | cons y ys =>
      have hlast' : (y :: ys).getLast? = some t := by
        rwa [List.getLast?_cons_cons] at hlast
      exact ⟨x, hstep, ih x t hch' hlast'⟩

/-! ### Association lists -/

theorem alookup_aupdate {α : Type} (l : List (Pos × α)) (p : Pos) (v : α)
    (q : Pos) :
    alookup (aupdate l p v) q = if q = p then some v else alookup l q := by
  induction l with
  | nil => simp [aupdate, alookup]
  | cons kv l ih =>
    obtain ⟨k, w⟩ := kv
    by_cases hk : k = p
    · subst hk
      simp only [aupdate, if_pos rfl]
      by_cases hq : q = k <;> simp [alookup, hq]
    · simp only [aupdate, if_neg hk]
      by_cases hq : q = k
      · subst hq
        have : ¬ q = p := hk
        simp [alookup, this]
      · simp [alookup, hq, ih]

theorem alookup_aupdate_isSome {α : Type} {l : List (Pos × α)} {q : Pos}
    (p : Pos) (v : α) (h : (alookup l q).isSome) :
    (alookup (aupdate l p v) q).isSome := by
  rw [alookup_aupdate]
  split_ifs <;> simp_all

theorem aupdate_length {α : Type} (l : List (Pos × α)) (p : Pos) (v : α) :
    (aupdate l p v).length =
      if (alookup l p).isSome then l.length else l.length + 1 := by
  induction l with
  | nil => simp [aupdate, alookup]
  | cons kv l ih =>
    obtain ⟨k, w⟩ := kv
    by_cases hk : k = p
    · subst hk
      simp [aupdate, alookup]
    · have : ¬ p = k := fun h => hk h.symm
      simp [aupdate, hk, alookup, this, ih]
      split_ifs <;> simp

/-! ### `pairLt` and `popMin` -/

theorem pairLt_iff (a b : Nat × Pos) :
    pairLt a b = true ↔
      a.1 < b.1 ∨ (a.1 = b.1 ∧
        (a.2.1 < b.2.1 ∨ (a.2.1 = b.2.1 ∧ a.2.2 < b.2.2))) := by
  simp [pairLt]

theorem pairLt_irrefl (a : Nat × Pos) : pairLt a a = false := by
  simp [pairLt]

theorem pairLt_eq_false_iff (a b : Nat × Pos) :
    pairLt a b = false ↔
      ¬ (a.1 < b.1 ∨ (a.1 = b.1 ∧
        (a.2.1 < b.2.1 ∨ (a.2.1 = b.2.1 ∧ a.2.2 < b.2.2)))) := by
  rw [Bool.eq_false_iff, Ne, pairLt_iff]

theorem pairLt_asymm {a b : Nat × Pos} (h : pairLt a b = true) :
    pairLt b a = false := by
  rw [pairLt_iff] at h
  rw [pairLt_eq_false_iff]
  omega

theorem pairLt_false_trans {a b c : Nat × Pos} (h1 : pairLt a b = false)
    (h2 : pairLt b c = false) : pairLt a c = false := by
  rw [pairLt_eq_false_iff] at h1 h2 ⊢
  omega

theorem popMin_none_iff (l : List (Nat × Pos)) :
    popMin l = none ↔ l = [] := by
  cases l with
  | nil => simp [popMin]
  | cons a l =>
    simp only [popMin]
    cases h : popMin l <;> simp_all
    split_ifs <;> simp

theorem popMin_perm :
    ∀ {l : List (Nat × Pos)} {x : Nat × Pos} {r : List (Nat × Pos)},
      popMin l = some (x, r) → l.Perm (x :: r) := by
  intro l
  induction l with
  | nil => intro x r h; simp [popMin] at h
  | cons a l ih =>
    intro x r h
    simp only [popMin] at h
    cases hl : popMin l with
    | none =>
      rw [hl] at h
      have : l = [] := (popMin_none_iff l).1 hl
      subst this
      simp at h
      obtain ⟨hx, hr⟩ := h
      subst hx; subst hr
      rfl
    | some mr =>
      obtain ⟨m, r'⟩ := mr
      rw [hl] at h
      dsimp only at h
      have hperm := ih hl
      split_ifs at h with hlt
      · simp at h
        obtain ⟨hx, hr⟩ := h
        subst hx; subst hr
        exact (hperm.cons a).trans (List.Perm.swap _ _ _)
      · simp at h
        obtain ⟨hx, hr⟩ := h
        subst hx; subst hr
        rfl

theorem popMin_min :
    ∀ {l : List (Nat × Pos)} {x : Nat × Pos} {r : List (Nat × Pos)},
      popMin l = some (x, r) → ∀ y ∈ l, pairLt y x = false := by
  intro l
  induction l with
  | nil => intro x r h; simp [popMin] at h
  | cons a l ih =>
    intro x r h y hy
    simp only [popMin] at h
    cases hl : popMin l with
    | none =>
      rw [hl] at h
      have : l = [] := (popMin_none_iff l).1 hl
      subst this
      simp at h hy
      obtain ⟨hx, -⟩ := h
      subst hx; subst hy
      exact pairLt_irrefl y
    | some mr =>
      obtain ⟨m, r'⟩ := mr
      rw [hl] at h
      dsimp only at h
      split_ifs at h with hlt
      · simp at h
        obtain ⟨hx, -⟩ := h
        subst hx
        rcases List.mem_cons.1 hy with hya | hyl
        · subst hya
          exact pairLt_asymm hlt
        · exact ih hl y hyl
      · simp at h
        obtain ⟨hx, -⟩ := h
        subst hx
        rcases List.mem_cons.1 hy with hya | hyl
        · subst hya
          exact pairLt_irrefl y
        · exact pairLt_false_trans (ih hl y hyl)
            (Bool.eq_false_iff.2 fun hc => by simp [hc] at hlt)

theorem popMin_mem {l : List (Nat × Pos)} {x : Nat × Pos}
    {r : List (Nat × Pos)} (h : popMin l = some (x, r)) : x ∈ l :=
  (popMin_perm h).mem_iff.2 (List.mem_cons_self x r)

theorem popMin_length {l : List (Nat × Pos)} {x : Nat × Pos}
    {r : List (Nat × Pos)} (h : popMin l = some (x, r)) :
    l.length = r.length + 1 := by
  have := (popMin_perm h).length_eq
  simpa using this

theorem mem_rest_of_popMin {l : List (Nat × Pos)} {x y : Nat × Pos}
    {r : List (Nat × Pos)} (h : popMin l = some (x, r)) (hy : y ∈ l)
    (hne : y ≠ x) : y ∈ r := by
  have := (popMin_perm h).mem_iff.1 hy
  rcases List.mem_cons.1 this with h' | h'
  · exact absurd h' hne
  · exact h'

/-! ### Cardinality bound on what the searches can visit -/

theorem valid_mem_allValid {g : Grid} {p : Pos}
    (h : is_valid_move g p = true) : p ∈ allValid g := by
  rw [is_valid_move_iff] at h
  simp only [allValid, Finset.mem_filter, Finset.mem_product, Finset.mem_Icc]
  refine ⟨⟨⟨h.1, by omega⟩, ⟨h.2.2.1, by omega⟩⟩, h.2.2.2.2⟩

theorem allValid_card_le (g : Grid) :
    (allValid g).card ≤ g.width.toNat * g.height.toNat := by
  calc (allValid g).card
      ≤ ((Finset.Icc (0 : Int) (g.width - 1)) ×ˢ
          (Finset.Icc (0 : Int) (g.height - 1))).card :=
        Finset.card_filter_le _ _
    _ = (Finset.Icc (0 : Int) (g.width - 1)).card *
          (Finset.Icc (0 : Int) (g.height - 1)).card := Finset.card_product _ _
    _ = g.width.toNat * g.height.toNat := by
        rw [Int.card_Icc, Int.card_Icc]
        congr 1 <;> omega

theorem filter_card_lt_of_new (g : Grid) (v : List Pos) {n : Pos}
    (hn : is_valid_move g n = true) (hnv : n ∉ v) :
    ((allValid g).filter fun p => p ∉ n :: v).card <
      ((allValid g).filter fun p => p ∉ v).card := by
  have hsub : ((allValid g).filter fun p => p ∉ n :: v) ⊆
      ((allValid g).filter fun p => p ∉ v) := by
    intro p hp
    simp only [Finset.mem_filter, List.mem_cons, not_or] at hp ⊢
    exact ⟨hp.1, hp.2.2⟩
  have hmem : n ∈ (allValid g).filter fun p => p ∉ v := by
    simp only [Finset.mem_filter]
    exact ⟨valid_mem_allValid hn, hnv⟩
  have hnot : n ∉ (allValid g).filter fun p => p ∉ n :: v := by
    simp [Finset.mem_filter]
  exact Finset.card_lt_card
    ((Finset.ssubset_iff_of_subset hsub).2 ⟨n, hmem, hnot⟩)

/-! ### BFS invariants -/

/-- Invariant of the BFS loop while the neighbours of `cur` are being
scanned (`cur` has just been dequeued). -/
structure BMid (g : Grid) (s e cur : Pos) (v q : List Pos) : Prop where
  qsub : ∀ p ∈ q, p ∈ v
  vreach : ∀ p ∈ v, Reach g s p
  vvalid : ∀ p ∈ v, p = s ∨ is_valid_move g p = true
  vscan : ∀ p ∈ v, p = cur ∨ p ∈ q ∨ ∀ n ∈ get_neighbors g p, n ∈ v
  einq : e ∈ v → e ∈ q
  sv : s ∈ v

/-- Invariant of the BFS loop between iterations. -/
structure BInv (g : Grid) (s e : Pos) (v q : List Pos) : Prop where
  qsub : ∀ p ∈ q, p ∈ v
  vreach : ∀ p ∈ v, Reach g s p
  vvalid : ∀ p ∈ v, p = s ∨ is_valid_move g p = true
  vscan : ∀ p ∈ v, p ∈ q ∨ ∀ n ∈ get_neighbors g p, n ∈ v
  einq : e ∈ v → e ∈ q
  sv : s ∈ v

theorem bfsFold_visited_mono :
    ∀ (L : List Pos) (vq : List Pos × List Pos) (p : Pos), p ∈ vq.1 →
      p ∈ (L.foldl bfsStep vq).1 := by
  intro L
  induction L with
  | nil => intro vq p hp; exact hp
  | cons n L ih =>
    intro vq p hp
    apply ih
    by_cases h : n ∈ vq.1
    · simpa [bfsStep, h] using hp
    · simp only [bfsStep, if_neg h]
      exact List.mem_cons_of_mem n hp

theorem bfsFold_L_sub :
    ∀ (L : List Pos) (vq : List Pos × List Pos) (n : Pos), n ∈ L →
      n ∈ (L.foldl bfsStep vq).1 := by
  intro L
  induction L with
  | nil => intro vq n hn; simp at hn
  | cons m L ih =>
    intro vq n hn
    rcases List.mem_cons.1 hn with h | h
    · subst h
      rw [List.foldl_cons]
      apply bfsFold_visited_mono
      by_cases hm : n ∈ vq.1
      · simp [bfsStep, hm]
      · simp only [bfsStep, if_neg hm]
        exact List.mem_cons_self n _
    · exact ih _ n h

theorem bfsFold_queue_sub :
    ∀ (L : List Pos) (vq : List Pos × List Pos) (p : Pos),
      p ∈ (L.foldl bfsStep vq).2 → p ∈ vq.2 ∨ p ∈ L := by
  intro L
  induction L with
  | nil => intro vq p hp; exact Or.inl hp
  | cons n L ih =>
    intro vq p hp
    rcases ih _ p hp with h | h
    · by_cases hm : n ∈ vq.1
      · rw [show bfsStep vq n = vq by simp [bfsStep, hm]] at h
        exact Or.inl h
      · rw [show bfsStep vq n = (n :: vq.1, vq.2 ++ [n]) by
          simp [bfsStep, hm]] at h
        rcases List.mem_append.1 h with h' | h'
        · exact Or.inl h'
        · simp at h'
          exact Or.inr (h' ▸ List.mem_cons_self n L)
    · exact Or.inr (List.mem_cons_of_mem n h)

theorem bfsFold_mid (g : Grid) (s e cur : Pos)
    (hcur : Reach g s cur) :
    ∀ (L : List Pos), (∀ n ∈ L, n ∈ get_neighbors g cur) →
    ∀ (v q : List Pos), BMid g s e cur v q →
      BMid g s e cur (L.foldl bfsStep (v, q)).1 (L.foldl bfsStep (v, q)).2 ∧
        bfsMeasure g (L.foldl bfsStep (v, q)).1 (L.foldl bfsStep (v, q)).2 ≤
          bfsMeasure g v q := by
  intro L
  induction L with
  | nil => intro _ v q hm; exact ⟨hm, le_refl _⟩
  | cons n L ih =>
    intro hL v q hm
    have hnn : n ∈ get_neighbors g cur := hL n (List.mem_cons_self n L)
    have hL' : ∀ m ∈ L, m ∈ get_neighbors g cur := fun m hmm =>
      hL m (List.mem_cons_of_mem n hmm)
    by_cases hv : n ∈ v
    · have hstep : bfsStep (v, q) n = (v, q) := by
        unfold bfsStep; simp [hv]
      simpa [List.foldl, hstep] using ih hL' v q hm
    · have hstep : bfsStep (v, q) n = (n :: v, q ++ [n]) := by
        unfold bfsStep; simp [hv]
      have hmid : BMid g s e cur (n :: v) (q ++ [n]) := by
        constructor
        · intro p hp
          rcases List.mem_append.1 hp with h | h
          · exact List.mem_cons_of_mem n (hm.qsub p h)
          · simp at h
            exact h ▸ List.mem_cons_self n v
        · intro p hp
          rcases List.mem_cons.1 hp with h | h
          · exact h ▸ hcur.tail hnn
          · exact hm.vreach p h
        · intro p hp
          rcases List.mem_cons.1 hp with h | h
          · exact Or.inr (h ▸ valid_of_mem_get_neighbors hnn)
          · exact hm.vvalid p h
        · intro p hp
          rcases List.mem_cons.1 hp with h | h
          · exact Or.inr (Or.inl (by simp [h]))
          · rcases hm.vscan p h with h' | h' | h'
            · exact Or.inl h'
            · exact Or.inr (Or.inl (List.mem_append.2 (Or.inl h')))
            · exact Or.inr (Or.inr fun m hmm =>
                List.mem_cons_of_mem n (h' m hmm))
        · intro he
          rcases List.mem_cons.1 he with h | h
          · exact List.mem_append.2 (Or.inr (by simp [h]))
          · exact List.mem_append.2 (Or.inl (hm.einq h))
        · exact List.mem_cons_of_mem n hm.sv
      have hmeas : bfsMeasure g (n :: v) (q ++ [n]) ≤ bfsMeasure g v q := by
        unfold bfsMeasure
        have := filter_card_lt_of_new g v (valid_of_mem_get_neighbors hnn) hv
        simp only [List.length_append, List.length_cons, List.length_nil]
        omega
      have := ih hL' (n :: v) (q ++ [n]) hmid
      constructor
      · simpa [List.foldl, hstep] using this.1
      · calc bfsMeasure g ((n :: L).foldl bfsStep (v, q)).1
              ((n :: L).foldl bfsStep (v, q)).2
            = bfsMeasure g (L.foldl bfsStep (n :: v, q ++ [n])).1
                (L.foldl bfsStep (n :: v, q ++ [n])).2 := by
              simp [List.foldl, hstep]
          _ ≤ bfsMeasure g (n :: v) (q ++ [n]) := this.2
          _ ≤ bfsMeasure g v q := hmeas

theorem bfs_complete_aux (g : Grid) (s e : Pos) (hse : s ≠ e) :
    ∀ (fuel : Nat) (v q : List Pos), BInv g s e v q →
      Reach g s e → bfsMeasure g v q < fuel → bfsLoop g e fuel v q = true := by
  intro fuel
  induction fuel with
  | zero => intro v q _ _ hf; omega
  | succ fuel ih =>
    intro v q hinv hre hf
    match hq : q with
    | [] =>
      exfalso
      have hcl : ∀ p ∈ v, ∀ n ∈ get_neighbors g p, n ∈ v := by
        intro p hp
        rcases hinv.vscan p hp with h | h
        · simp [hq] at h
        · exact h
      have hall : ∀ p : Pos, Reach g s p → p ∈ v := by
        intro p hr
        induction hr with
        | refl => exact hinv.sv
        | tail _ hstep ihh => exact hcl _ ihh _ hstep
      have := hinv.einq (hall e hre)
      simp [hq] at this
    | cur :: rest =>
      by_cases hcur : cur = e
      · simp [bfsLoop, hcur]
      · have hmid : BMid g s e cur v rest := by
          constructor
          · intro p hp
            exact hinv.qsub p (List.mem_cons_of_mem cur hp)
          · exact hinv.vreach
          · exact hinv.vvalid
          · intro p hp
            rcases hinv.vscan p hp with h | h
            · rcases List.mem_cons.1 h with h' | h'
              · exact Or.inl h'
              · exact Or.inr (Or.inl h')
            · exact Or.inr (Or.inr h)
          · intro he
            have := hinv.einq he
            rcases List.mem_cons.1 this with h | h
            · exact absurd h.symm hcur
            · exact h
          · exact hinv.sv
        have hrc : Reach g s cur :=
          hinv.vreach cur (hinv.qsub cur (List.mem_cons_self cur rest))
        obtain ⟨hmid', hmeas⟩ :=
          bfsFold_mid g s e cur hrc (get_neighbors g cur)
            (fun n hn => hn) v rest hmid
        set vq := (get_neighbors g cur).foldl bfsStep (v, rest) with hvq
        have hinv' : BInv g s e vq.1 vq.2 := by
          constructor
          · exact hmid'.qsub
          · exact hmid'.vreach
          · exact hmid'.vvalid
          · intro p hp
            rcases hmid'.vscan p hp with h | h | h
            · subst h
              exact Or.inr fun n hn =>
                bfsFold_L_sub (get_neighbors g p) (v, rest) n hn
            · exact Or.inl h
            · exact Or.inr h
          · exact hmid'.einq
          · exact hmid'.sv
        have hfuel' : bfsMeasure g vq.1 vq.2 < fuel := by
          have : bfsMeasure g v (cur :: rest) = bfsMeasure g v rest + 1 := by
            unfold bfsMeasure
            simp only [List.length_cons]
            omega
          omega
        have : bfsLoop g e (fuel + 1) v (cur :: rest) =
            bfsLoop g e fuel vq.1 vq.2 := by
          simp [bfsLoop, hcur, hvq]
        rw [this]
        exact ih vq.1 vq.2 hinv' hre hfuel'

theorem bfs_sound_aux (g : Grid) (s e : Pos) :
    ∀ (fuel : Nat) (v q : List Pos), (∀ p ∈ q, Reach g s p) →
      bfsLoop g e fuel v q = true → Reach g s e := by
  intro fuel
  induction fuel with
  | zero => intro v q _ h; simp [bfsLoop] at h
  | succ fuel ih =>
    intro v q hq h
    match hqe : q with
    | [] => simp [bfsLoop] at h
    | cur :: rest =>
      by_cases hcur : cur = e
      · exact hcur ▸ hq cur (List.mem_cons_self cur rest)
      · have hrc : Reach g s cur := hq cur (List.mem_cons_self cur rest)
        simp only [bfsLoop, hcur, if_false] at h
        apply ih _ _ _ h
        intro p hp
        rcases bfsFold_queue_sub (get_neighbors g cur) (v, rest) p hp with
          h' | h'
        · exact hq p (hqe ▸ List.mem_cons_of_mem cur h')
        · exact hrc.tail h'

/-- The BFS of `is_path_exists` decides reachability: its fixed fuel
`width * height + 2` provably suffices. -/
theorem is_path_exists_iff_reach (g : Grid) (s e : Pos) :
    is_path_exists g s e = true ↔ Reach g s e := by
  by_cases hse : s = e
  · subst hse
    simp [is_path_exists]
    exact Relation.ReflTransGen.refl
  · constructor
    · intro h
      unfold is_path_exists at h
      rw [if_neg hse] at h
      exact bfs_sound_aux g s e _ [s] [s]
        (fun p hp => by simp at hp; exact hp ▸ Relation.ReflTransGen.refl) h
    · intro hre
      unfold is_path_exists
      rw [if_neg hse]
      apply bfs_complete_aux g s e hse _ [s] [s] _ hre
      · have h1 : ((allValid g).filter fun p => p ∉ ([s] : List Pos)).card ≤
            (allValid g).card := Finset.card_filter_le _ _
        have h2 := allValid_card_le g
        unfold bfsMeasure
        simp only [List.length_cons, List.length_nil]
        omega
      · constructor
        · intro p hp; exact hp
        · intro p hp
          simp at hp
          exact hp ▸ Relation.ReflTransGen.refl
        · intro p hp
          simp at hp
          exact Or.inl hp
        · intro p hp
          simp at hp
          subst hp
          exact Or.inl (List.mem_cons_self p [])
        · intro he
          simp at he
          exact absurd he.symm hse
        · exact List.mem_cons_self s []

/-! ### Solvability of generated grids (claim C1) -/

theorem initGrid_valid_iff (w h : Int) (p : Pos) :
    is_valid_move (initGrid w h) p = true ↔
      0 ≤ p.1 ∧ p.1 < w ∧ 0 ≤ p.2 ∧ p.2 < h := by
  rw [is_valid_move_iff]
  simp [initGrid]

theorem reach_empty_up (w h : Int) (hw : 1 ≤ w) :
    ∀ k : Nat, (k : Int) ≤ h - 1 →
      Reach (initGrid w h) (0, h - 1) (0, h - 1 - (k : Int)) := by
  intro k
  induction k with
  | zero =>
    intro _
    simpa using Relation.ReflTransGen.refl
  | succ k ih =>
    intro hk
    have hk' : (k : Int) ≤ h - 1 := by push_cast at hk ⊢; omega
    refine (ih hk').tail ?_
    show _ ∈ get_neighbors _ _
    rw [mem_get_neighbors]
    constructor
    · rw [initGrid_valid_iff]
      refine ⟨by omega, by omega, ?_, ?_⟩ <;> push_cast at hk ⊢ <;> omega
    · left
      simp only [Prod.mk.injEq]
      refine ⟨trivial, ?_⟩
      push_cast
      ring

theorem reach_empty_right (w h : Int) (hh : 1 ≤ h) :
    ∀ j : Nat, (j : Int) ≤ w - 1 →
      Reach (initGrid w h) (0, 0) ((j : Int), 0) := by
  intro j
  induction j with
  | zero =>
    intro _
    simpa using Relation.ReflTransGen.refl
  | succ j ih =>
    intro hj
    have hj' : (j : Int) ≤ w - 1 := by push_cast at hj ⊢; omega
    refine (ih hj').tail ?_
    show _ ∈ get_neighbors _ _
    rw [mem_get_neighbors]
    constructor
    · rw [initGrid_valid_iff]
      refine ⟨?_, ?_, by omega, by omega⟩ <;> push_cast at hj ⊢ <;> omega
    · right; left
      simp only [Prod.mk.injEq]
      refine ⟨?_, trivial⟩
      push_cast
      ring

theorem initGrid_reach (w h : Int) (hw : 1 ≤ w) (hh : 1 ≤ h) :
    Reach (initGrid w h) (0, h - 1) (w - 1, 0) := by
  have hv := reach_empty_up w h hw (h - 1).toNat (by omega)
  have hh' : ((h - 1).toNat : Int) = h - 1 := by omega
  rw [hh'] at hv
  have hv' : Reach (initGrid w h) (0, h - 1) (0, 0) := by
    simpa using hv
  have hr := reach_empty_right w h hh (w - 1).toNat (by omega)
  have hw' : ((w - 1).toNat : Int) = w - 1 := by omega
  rw [hw'] at hr
  exact hv'.trans hr

theorem placeStep_fields (g : Grid) (p : Pos) :
    (placeStep g p).1.width = g.width ∧
      (placeStep g p).1.height = g.height ∧
      (placeStep g p).1.player_pos = g.player_pos ∧
      (placeStep g p).1.goal_pos = g.goal_pos := by
  unfold placeStep
  split_ifs <;> simp [setObstacle]

theorem placeStep_path (g : Grid) (p : Pos)
    (hp : is_path_exists g g.player_pos g.goal_pos = true) :
    is_path_exists (placeStep g p).1 (placeStep g p).1.player_pos
      (placeStep g p).1.goal_pos = true := by
  unfold placeStep
  split_ifs with h1 h2 h3
  · exact hp
  · exact hp
  · exact h3
  · exact hp

theorem genLoop_path :
    ∀ (samples : List Pos) (placed target : Nat) (g : Grid),
      is_path_exists g g.player_pos g.goal_pos = true →
      is_path_exists (genLoop target placed g samples)
        (genLoop target placed g samples).player_pos
        (genLoop target placed g samples).goal_pos = true := by
  intro samples
  induction samples with
  | nil => intro placed target g hp; exact hp
  | cons p ps ih =>
    intro placed target g hp
    unfold genLoop
    split_ifs with h
    · exact ih _ _ _ (placeStep_path g p hp)
    · exact hp

/-! ### A* helper lemmas -/

theorem containsPos_iff (l : List (Nat × Pos)) (p : Pos) :
    containsPos l p = true ↔ ∃ f, (f, p) ∈ l := by
  unfold containsPos
  rw [List.any_eq_true]
  constructor
  · rintro ⟨⟨f2, p2⟩, hit, hp⟩
    simp at hp
    subst hp
    exact ⟨f2, hit⟩
  · rintro ⟨f, hf⟩
    exact ⟨(f, p), hf, by simp⟩

theorem containsPos_append (l l' : List (Nat × Pos)) (p : Pos) :
    containsPos (l ++ l') p = (containsPos l p || containsPos l' p) := by
  simp [containsPos, List.any_append]

theorem filter_card_lt_of_keyed (g : Grid) (gs : List (Pos × Nat)) {n : Pos}
    (t : Nat) (hn : is_valid_move g n = true) (hnk : alookup gs n = none) :
    ((allValid g).filter fun p => alookup (aupdate gs n t) p = none).card <
      ((allValid g).filter fun p => alookup gs p = none).card := by
  have hsub : ((allValid g).filter fun p => alookup (aupdate gs n t) p = none) ⊆
      ((allValid g).filter fun p => alookup gs p = none) := by
    intro p hp
    simp only [Finset.mem_filter] at hp ⊢
    refine ⟨hp.1, ?_⟩
    have h2 := hp.2
    rw [alookup_aupdate] at h2
    by_cases hpn : p = n
    · rw [if_pos hpn] at h2
      exact absurd h2 (by simp)
    · rwa [if_neg hpn] at h2
  have hmem : n ∈ (allValid g).filter fun p => alookup gs p = none := by
    simp only [Finset.mem_filter]
    exact ⟨valid_mem_allValid hn, hnk⟩
  have hnot : n ∉ (allValid g).filter fun p =>
      alookup (aupdate gs n t) p = none := by
    simp only [Finset.mem_filter, not_and]
    intro _
    rw [alookup_aupdate]
    simp
  exact Finset.card_lt_card
    ((Finset.ssubset_iff_of_subset hsub).2 ⟨n, hmem, hnot⟩)

theorem filter_card_eq_of_rekey (g : Grid) (gs : List (Pos × Nat)) {n : Pos}
    (t : Nat) (hk : (alookup gs n).isSome) :
    ((allValid g).filter fun p => alookup (aupdate gs n t) p = none).card =
      ((allValid g).filter fun p => alookup gs p = none).card := by
  congr 1
  apply Finset.filter_congr
  intro p _
  rw [alookup_aupdate]
  split_ifs with h
  · subst h
    rw [Option.isSome_iff_exists] at hk
    obtain ⟨v, hv⟩ := hk
    simp [hv]
  · rfl

/-! ### A* invariants -/

/-- Invariant of the A* loop while the neighbours of `cur` are being
relaxed (`cur` has just been popped and added to the closed set). -/
structure AMid (g : Grid) (s e cur : Pos) (st : AState) : Prop where
  start_zero : alookup st.gScore s = some 0
  open_sub : ∀ fp ∈ st.openSet, (alookup st.gScore fp.2).isSome
  g_split : ∀ p, (alookup st.gScore p).isSome →
    containsPos st.openSet p = true ∨ p ∈ st.closed
  closed_sub : ∀ p ∈ st.closed, (alookup st.gScore p).isSome
  e_closed : e ∉ st.closed
  cf_iff : ∀ p, (alookup st.cameFrom p).isSome ↔
    ((alookup st.gScore p).isSome ∧ p ≠ s)
  cf_edge : ∀ p q, alookup st.cameFrom p = some q → p ∈ get_neighbors g q
  cf_lt : ∀ p q, alookup st.cameFrom p = some q →
    ∃ gp gq, alookup st.gScore p = some gp ∧
      alookup st.gScore q = some gq ∧ gq < gp
  scanned : ∀ p ∈ st.closed, p ≠ cur →
    ∀ n ∈ get_neighbors g p, (alookup st.gScore n).isSome
  g_val : ∀ p, (alookup st.gScore p).isSome →
    p = s ∨ is_valid_move g p = true
  g_reach : ∀ p, (alookup st.gScore p).isSome → Reach g s p
  g_bound : ∀ p gp, alookup st.gScore p = some gp → gp ≤ st.cameFrom.length
  cur_closed : cur ∈ st.closed

/-- Invariant of the A* loop between iterations. -/
structure AInv (g : Grid) (s e : Pos) (st : AState) : Prop where
  start_zero : alookup st.gScore s = some 0
  open_sub : ∀ fp ∈ st.openSet, (alookup st.gScore fp.2).isSome
  g_split : ∀ p, (alookup st.gScore p).isSome →
    containsPos st.openSet p = true ∨ p ∈ st.closed
  closed_sub : ∀ p ∈ st.closed, (alookup st.gScore p).isSome
  e_closed : e ∉ st.closed
  cf_iff : ∀ p, (alookup st.cameFrom p).isSome ↔
    ((alookup st.gScore p).isSome ∧ p ≠ s)
  cf_edge : ∀ p q, alookup st.cameFrom p = some q → p ∈ get_neighbors g q
  cf_lt : ∀ p q, alookup st.cameFrom p = some q →
    ∃ gp gq, alookup st.gScore p = some gp ∧
      alookup st.gScore q = some gq ∧ gq < gp
  scanned : ∀ p ∈ st.closed, ∀ n ∈ get_neighbors g p,
    (alookup st.gScore n).isSome
  g_val : ∀ p, (alookup st.gScore p).isSome →
    p = s ∨ is_valid_move g p = true
  g_reach : ∀ p, (alookup st.gScore p).isSome → Reach g s p
  g_bound : ∀ p gp, alookup st.gScore p = some gp → gp ≤ st.cameFrom.length

theorem isSome_aupdate_self {α : Type} (l : List (Pos × α)) (p : Pos)
    (v : α) : (alookup (aupdate l p v) p).isSome = true := by
  rw [alookup_aupdate]
  simp

theorem relaxOne_eq_of_closed (g : Grid) (e cur : Pos) (st : AState)
    {n : Pos} (h : n ∈ st.closed) : relaxOne g e cur st n = st := by
  simp [relaxOne, h]

theorem relaxOne_eq_of_stale (g : Grid) (e cur : Pos) (st : AState)
    {n : Pos} {gc gn : Nat} (hcl : n ∉ st.closed)
    (hgc : alookup st.gScore cur = some gc)
    (hgn : alookup st.gScore n = some gn) (himp : ¬ gc + 1 < gn) :
    relaxOne g e cur st n = st := by
  simp [relaxOne, hcl, hgn, hgc, himp]

theorem relaxOne_eq_of_fresh (g : Grid) (e cur : Pos) (st : AState)
    {n : Pos} {gc : Nat} (hcl : n ∉ st.closed)
    (hgc : alookup st.gScore cur = some gc)
    (hgn : alookup st.gScore n = none)
    (hcont : containsPos st.openSet n = false) :
    relaxOne g e cur st n =
      { st with
        cameFrom := aupdate st.cameFrom n cur
        gScore := aupdate st.gScore n (gc + 1)
        fScore := aupdate st.fScore n (gc + 1 + heuristic n e)
        openSet := st.openSet ++ [(gc + 1 + heuristic n e, n)]
        pushes := st.pushes ++ [(gc + 1 + heuristic n e, n)] } := by
  simp [relaxOne, hcl, hgn, hgc, hcont]

theorem relaxOne_eq_of_improve (g : Grid) (e cur : Pos) (st : AState)
    {n : Pos} {gc gn : Nat} (hcl : n ∉ st.closed)
    (hgc : alookup st.gScore cur = some gc)
    (hgn : alookup st.gScore n = some gn) (himp : gc + 1 < gn)
    (hcont : containsPos st.openSet n = true) :
    relaxOne g e cur st n =
      { st with
        cameFrom := aupdate st.cameFrom n cur
        gScore := aupdate st.gScore n (gc + 1)
        fScore := aupdate st.fScore n (gc + 1 + heuristic n e) } := by
  simp [relaxOne, hcl, hgn, hgc, himp, hcont]


theorem relaxOne_mid (g : Grid) (s e cur : Pos) {n : Pos}
    (hn : n ∈ get_neighbors g cur) (st : AState)
    (hm : AMid g s e cur st) :
    AMid g s e cur (relaxOne g e cur st n) ∧
      (alookup (relaxOne g e cur st n).gScore n).isSome ∧
      aMeasure g (relaxOne g e cur st n) ≤ aMeasure g st ∧
      (∀ p, (alookup st.gScore p).isSome →
        (alookup (relaxOne g e cur st n).gScore p).isSome) ∧
      (∀ x ∈ st.openSet, x ∈ (relaxOne g e cur st n).openSet) ∧
      (relaxOne g e cur st n).closed = st.closed ∧
      (relaxOne g e cur st n).pops = st.pops := by
  have hncur : n ≠ cur := by
    intro h
    exact not_self_mem_get_neighbors g cur (h ▸ hn)
  have hcur_keyed := hm.closed_sub cur hm.cur_closed
  obtain ⟨gc, hgc⟩ := Option.isSome_iff_exists.1 hcur_keyed
  by_cases hcl : n ∈ st.closed
  · rw [relaxOne_eq_of_closed g e cur st hcl]
    exact ⟨hm, hm.closed_sub n hcl, le_refl _, fun p hp => hp,
      fun x hx => hx, rfl, rfl⟩
  cases hgn : alookup st.gScore n with
  | some gn =>
    by_cases himp : gc + 1 < gn
    · -- improvement of an already discovered node: it is still in the
      -- open set, so no push happens
      have hns : n ≠ s := by
        intro h
        subst h
        rw [hm.start_zero] at hgn
        simp at hgn
        omega
      have hcont : containsPos st.openSet n = true := by
        rcases hm.g_split n (by simp [hgn]) with h | h
        · exact h
        · exact absurd h hcl
      rw [relaxOne_eq_of_improve g e cur st hcl hgc hgn himp hcont]
      have hmono : ∀ p, (alookup st.gScore p).isSome →
          (alookup (aupdate st.gScore n (gc + 1)) p).isSome :=
        fun p hp => alookup_aupdate_isSome n (gc + 1) hp
      have hcfk : (alookup st.cameFrom n).isSome := by
        rw [hm.cf_iff]
        exact ⟨by simp [hgn], hns⟩
      have hcflen : (aupdate st.cameFrom n cur).length =
          st.cameFrom.length := by
        rw [aupdate_length, if_pos hcfk]
      refine ⟨?_, ?_, ?_, ?_, ?_, rfl, rfl⟩
      · constructor
        · rw [alookup_aupdate, if_neg (fun h => hns h.symm)]
          exact hm.start_zero
        · intro fp hfp
          exact hmono _ (hm.open_sub fp hfp)
        · intro p hp
          by_cases hpn : p = n
          · subst hpn
            exact Or.inl hcont
          · rw [alookup_aupdate, if_neg hpn] at hp
            exact hm.g_split p hp
        · intro p hp
          exact hmono _ (hm.closed_sub p hp)
        · exact hm.e_closed
        · intro p
          by_cases hpn : p = n
          · subst hpn
            rw [alookup_aupdate, if_pos rfl, alookup_aupdate, if_pos rfl]
            simpa using hns
          · rw [alookup_aupdate, if_neg hpn, alookup_aupdate, if_neg hpn]
            exact hm.cf_iff p
        · intro p q hq
          by_cases hpn : p = n
          · subst hpn
            rw [alookup_aupdate, if_pos rfl] at hq
            simp at hq
            exact hq ▸ hn
          · rw [alookup_aupdate, if_neg hpn] at hq
            exact hm.cf_edge p q hq
        · intro p q hq
          by_cases hpn : p = n
          · subst hpn
            rw [alookup_aupdate, if_pos rfl] at hq
            simp at hq
            subst hq
            exact ⟨gc + 1, gc, by rw [alookup_aupdate, if_pos rfl],
              by rw [alookup_aupdate, if_neg (Ne.symm hncur)]; exact hgc,
              by omega⟩
          · rw [alookup_aupdate, if_neg hpn] at hq
            obtain ⟨gp, gq, hgp, hgq, hlt⟩ := hm.cf_lt p q hq
            by_cases hqn : q = n
            · subst hqn
              rw [hgq] at hgn
              have hgqn : gq = gn := Option.some.inj hgn
              exact ⟨gp, gc + 1,
                by rw [alookup_aupdate, if_neg hpn]; exact hgp,
                by rw [alookup_aupdate, if_pos rfl], by omega⟩
            · exact ⟨gp, gq,
                by rw [alookup_aupdate, if_neg hpn]; exact hgp,
                by rw [alookup_aupdate, if_neg hqn]; exact hgq, hlt⟩
        · intro p hp hpc m hmm
          exact hmono _ (hm.scanned p hp hpc m hmm)
        · intro p hp
          by_cases hpn : p = n
          · exact Or.inr (hpn ▸ valid_of_mem_get_neighbors hn)
          · rw [alookup_aupdate, if_neg hpn] at hp
            exact hm.g_val p hp
        · intro p hp
          by_cases hpn : p = n
          · subst hpn
            exact (hm.g_reach cur hcur_keyed).tail hn
          · rw [alookup_aupdate, if_neg hpn] at hp
            exact hm.g_reach p hp
        · intro p gp hgp
          rw [hcflen]
          by_cases hpn : p = n
          · subst hpn
            rw [alookup_aupdate, if_pos rfl] at hgp
            have hb := hm.g_bound _ gn hgn
            simp at hgp
            omega
          · rw [alookup_aupdate, if_neg hpn] at hgp
            exact hm.g_bound p gp hgp
        · exact hm.cur_closed
      · exact isSome_aupdate_self _ _ _
      · show ((allValid g).filter fun p =>
            alookup (aupdate st.gScore n (gc + 1)) p = none).card +
            st.openSet.length ≤ _
        rw [filter_card_eq_of_rekey g st.gScore (gc + 1) (by simp [hgn])]
        exact le_refl _
      · exact hmono
      · intro x hx
        exact hx
    · -- no improvement: nothing changes
      rw [relaxOne_eq_of_stale g e cur st hcl hgc hgn himp]
      exact ⟨hm, by simp [hgn], le_refl _, fun p hp => hp,
        fun x hx => hx, rfl, rfl⟩
  | none =>
    -- fresh discovery: update the maps and push onto the open set
    have hns : n ≠ s := by
      intro h
      subst h
      rw [hm.start_zero] at hgn
      simp at hgn
    have hcont : containsPos st.openSet n = false := by
      rw [Bool.eq_false_iff]
      intro h
      obtain ⟨f, hf⟩ := (containsPos_iff _ _).1 h
      have := hm.open_sub (f, n) hf
      simp [hgn] at this
    rw [relaxOne_eq_of_fresh g e cur st hcl hgc hgn hcont]
    have hmono : ∀ p, (alookup st.gScore p).isSome →
        (alookup (aupdate st.gScore n (gc + 1)) p).isSome :=
      fun p hp => alookup_aupdate_isSome n (gc + 1) hp
    have hcfk : (alookup st.cameFrom n).isSome = false := by
      rw [Bool.eq_false_iff]
      intro h
      have := ((hm.cf_iff n).1 h).1
      simp [hgn] at this
    have hcflen : (aupdate st.cameFrom n cur).length =
        st.cameFrom.length + 1 := by
      rw [aupdate_length, if_neg (by simp [hcfk])]
    refine ⟨?_, ?_, ?_, ?_, ?_, rfl, rfl⟩
    · constructor
      · rw [alookup_aupdate, if_neg (fun h => hns h.symm)]
        exact hm.start_zero
      · intro fp hfp
        rcases List.mem_append.1 hfp with h | h
        · exact hmono _ (hm.open_sub fp h)
        · simp at h
          subst h
          exact isSome_aupdate_self _ _ _
      · intro p hp
        by_cases hpn : p = n
        · subst hpn
          left
          rw [containsPos_append]
          simp [containsPos]
        · rw [alookup_aupdate, if_neg hpn] at hp
          rcases hm.g_split p hp with h | h
          · left
            rw [containsPos_append, h]
            simp
          · exact Or.inr h
      · intro p hp
        exact hmono _ (hm.closed_sub p hp)
      · exact hm.e_closed
      · intro p
        by_cases hpn : p = n
        · subst hpn
          rw [alookup_aupdate, if_pos rfl, alookup_aupdate, if_pos rfl]
          simpa using hns
        · rw [alookup_aupdate, if_neg hpn, alookup_aupdate, if_neg hpn]
          exact hm.cf_iff p
      · intro p q hq
        by_cases hpn : p = n
        · subst hpn
          rw [alookup_aupdate, if_pos rfl] at hq
          simp at hq
          exact hq ▸ hn
        · rw [alookup_aupdate, if_neg hpn] at hq
          exact hm.cf_edge p q hq
      · intro p q hq
        by_cases hpn : p = n
        · subst hpn
          rw [alookup_aupdate, if_pos rfl] at hq
          simp at hq
          subst hq
          exact ⟨gc + 1, gc, by rw [alookup_aupdate, if_pos rfl],
            by rw [alookup_aupdate, if_neg (Ne.symm hncur)]; exact hgc,
            by omega⟩
        · rw [alookup_aupdate, if_neg hpn] at hq
          obtain ⟨gp, gq, hgp, hgq, hlt⟩ := hm.cf_lt p q hq
          by_cases hqn : q = n
          · subst hqn
            rw [hgn] at hgq
            simp at hgq
          · exact ⟨gp, gq,
              by rw [alookup_aupdate, if_neg hpn]; exact hgp,
              by rw [alookup_aupdate, if_neg hqn]; exact hgq, hlt⟩
      · intro p hp hpc m hmm
        exact hmono _ (hm.scanned p hp hpc m hmm)
      · intro p hp
        by_cases hpn : p = n
        · exact Or.inr (hpn ▸ valid_of_mem_get_neighbors hn)
        · rw [alookup_aupdate, if_neg hpn] at hp
          exact hm.g_val p hp
      · intro p hp
        by_cases hpn : p = n
        · subst hpn
          exact (hm.g_reach cur hcur_keyed).tail hn
        · rw [alookup_aupdate, if_neg hpn] at hp
          exact hm.g_reach p hp
      · intro p gp hgp
        rw [hcflen]
        by_cases hpn : p = n
        · subst hpn
          rw [alookup_aupdate, if_pos rfl] at hgp
          have hb := hm.g_bound cur gc hgc
          simp at hgp
          omega
        · rw [alookup_aupdate, if_neg hpn] at hgp
          have := hm.g_bound p gp hgp
          omega
      · exact hm.cur_closed
    · exact isSome_aupdate_self _ _ _
    · show ((allValid g).filter fun p =>
          alookup (aupdate st.gScore n (gc + 1)) p = none).card +
          (st.openSet ++ [(gc + 1 + heuristic n e, n)]).length ≤
          ((allValid g).filter fun p => alookup st.gScore p = none).card +
          st.openSet.length
      have hlt := filter_card_lt_of_keyed g st.gScore (gc + 1)
        (valid_of_mem_get_neighbors hn) hgn
      simp only [List.length_append, List.length_cons, List.length_nil]
      omega
    · exact hmono
    · intro x hx
      exact List.mem_append.2 (Or.inl hx)

theorem relaxFold_mid (g : Grid) (s e cur : Pos) :
    ∀ (L : List Pos), (∀ n ∈ L, n ∈ get_neighbors g cur) →
    ∀ st : AState, AMid g s e cur st →
      AMid g s e cur (L.foldl (relaxOne g e cur) st) ∧
        (∀ n ∈ L,
          (alookup (L.foldl (relaxOne g e cur) st).gScore n).isSome) ∧
        aMeasure g (L.foldl (relaxOne g e cur) st) ≤ aMeasure g st ∧
        (∀ p, (alookup st.gScore p).isSome →
          (alookup (L.foldl (relaxOne g e cur) st).gScore p).isSome) ∧
        (∀ x ∈ st.openSet, x ∈ (L.foldl (relaxOne g e cur) st).openSet) ∧
        (L.foldl (relaxOne g e cur) st).closed = st.closed ∧
        (L.foldl (relaxOne g e cur) st).pops = st.pops := by
  intro L
  induction L with
  | nil =>
    intro _ st hm
    exact ⟨hm, by simp, le_refl _, fun p hp => hp, fun x hx => hx, rfl, rfl⟩
  | cons n L ih =>
    intro hL st hm
    have hn : n ∈ get_neighbors g cur := hL n (List.mem_cons_self n L)
    have hL' : ∀ m ∈ L, m ∈ get_neighbors g cur := fun m hmm =>
      hL m (List.mem_cons_of_mem n hmm)
    obtain ⟨hm1, hk1, hms1, hmono1, hop1, hcl1, hpo1⟩ :=
      relaxOne_mid g s e cur hn st hm
    obtain ⟨hm2, hk2, hms2, hmono2, hop2, hcl2, hpo2⟩ :=
      ih hL' (relaxOne g e cur st n) hm1
    rw [List.foldl_cons]
    refine ⟨hm2, ?_, le_trans hms2 hms1, fun p hp => hmono2 p (hmono1 p hp),
      fun x hx => hop2 x (hop1 x hx), hcl2.trans hcl1, hpo2.trans hpo1⟩
    intro m hmm
    rcases List.mem_cons.1 hmm with h | h
    · exact h ▸ hmono2 m (h ▸ hk1)
    · exact hk2 m h

theorem astar_step (g : Grid) (s e : Pos) {st : AState} {f : Nat}
    {cur : Pos} {rest : List (Nat × Pos)} (hinv : AInv g s e st)
    (hpop : popMin st.openSet = some ((f, cur), rest)) (hne : cur ≠ e) :
    AInv g s e ((get_neighbors g cur).foldl (relaxOne g e cur)
        { st with openSet := rest, pops := st.pops ++ [(f, cur)], closed := cur :: st.closed }) ∧
      aMeasure g ((get_neighbors g cur).foldl (relaxOne g e cur)
        { st with openSet := rest, pops := st.pops ++ [(f, cur)], closed := cur :: st.closed }) < aMeasure g st := by
  have hcur_mem : (f, cur) ∈ st.openSet := popMin_mem hpop
  have hcur_keyed : (alookup st.gScore cur).isSome :=
    hinv.open_sub (f, cur) hcur_mem
  set stm : AState := { st with openSet := rest, pops := st.pops ++ [(f, cur)], closed := cur :: st.closed } with hstm
  have hmid : AMid g s e cur stm := by
    constructor
    · exact hinv.start_zero
    · intro fp hfp
      exact hinv.open_sub fp ((popMin_perm hpop).mem_iff.2
        (List.mem_cons_of_mem _ hfp))
    · intro p hp
      rcases hinv.g_split p hp with h | h
      · obtain ⟨f', hf'⟩ := (containsPos_iff _ _).1 h
        by_cases hpc : p = cur
        · exact Or.inr (hpc ▸ List.mem_cons_self cur st.closed)
        · have : (f', p) ∈ rest := mem_rest_of_popMin hpop hf'
            (by simp [hpc])
          exact Or.inl ((containsPos_iff _ _).2 ⟨f', this⟩)
      · exact Or.inr (List.mem_cons_of_mem cur h)
    · intro p hp
      rcases List.mem_cons.1 hp with h | h
      · exact h ▸ hcur_keyed
      · exact hinv.closed_sub p h
    · intro h
      rcases List.mem_cons.1 h with h' | h'
      · exact hne h'.symm
      · exact hinv.e_closed h'
    · exact hinv.cf_iff
    · exact hinv.cf_edge
    · exact hinv.cf_lt
    · intro p hp hpc m hmm
      rcases List.mem_cons.1 hp with h | h
      · exact absurd h hpc
      · exact hinv.scanned p h m hmm
    · exact hinv.g_val
    · exact hinv.g_reach
    · exact hinv.g_bound
    · exact List.mem_cons_self cur st.closed
  obtain ⟨hm', hkL, hms, hmono, hop, hcl, hpo⟩ :=
    relaxFold_mid g s e cur (get_neighbors g cur) (fun n hn => hn) stm hmid
  constructor
  · constructor
    · exact hm'.start_zero
    · exact hm'.open_sub
    · exact hm'.g_split
    · exact hm'.closed_sub
    · exact hm'.e_closed
    · exact hm'.cf_iff
    · exact hm'.cf_edge
    · exact hm'.cf_lt
    · intro p hp m hmm
      by_cases hpc : p = cur
      · exact hkL m (hpc ▸ hmm)
      · exact hm'.scanned p hp hpc m hmm
    · exact hm'.g_val
    · exact hm'.g_reach
    · exact hm'.g_bound
  · have hlen := popMin_length hpop
    have : aMeasure g stm + 1 = aMeasure g st := by
      unfold aMeasure
      rw [hstm]
      simp only []
      omega
    omega

theorem getLast_cons_ne_nil {α : Type} (s : α) {l : List α} (h : l ≠ []) :
    (s :: l).getLast? = l.getLast? := by
  cases l with
  | nil => exact absurd rfl h
  | cons b l' => exact List.getLast?_cons_cons

theorem reconstruct_spec (g : Grid) (s : Pos) (cf : List (Pos × Pos))
    (gs : List (Pos × Nat))
    (hiff : ∀ q, (alookup cf q).isSome ↔ ((alookup gs q).isSome ∧ q ≠ s))
    (hedge : ∀ p q, alookup cf p = some q → p ∈ get_neighbors g q)
    (hlt : ∀ p q, alookup cf p = some q →
      ∃ gp gq, alookup gs p = some gp ∧ alookup gs q = some gq ∧ gq < gp) :
    ∀ (fuel : Nat) (p : Pos) (gp : Nat), alookup gs p = some gp →
      gp < fuel →
      (p = s → reconstruct cf fuel p = []) ∧
      (p ≠ s → reconstruct cf fuel p ≠ [] ∧
        List.Chain' (fun a b => b ∈ get_neighbors g a)
          (s :: reconstruct cf fuel p) ∧
        (reconstruct cf fuel p).getLast? = some p) := by
  intro fuel
  induction fuel with
  | zero => intro p gp _ h; omega
  | succ fuel ih =>
    intro p gp hgp hfp
    by_cases hps : p = s
    · subst hps
      have hnone : alookup cf p = none := by
        cases h : alookup cf p with
        | none => rfl
        | some q =>
          have := (hiff p).1 (by simp [h])
          exact absurd rfl this.2
      refine ⟨fun _ => by simp [reconstruct, hnone], fun h => absurd rfl h⟩
    · have hk : (alookup cf p).isSome :=
        (hiff p).2 ⟨by simp [hgp], hps⟩
      obtain ⟨prev, hprev⟩ := Option.isSome_iff_exists.1 hk
      obtain ⟨gp', gq, hgp', hgq, hless⟩ := hlt p prev hprev
      have hgpe : gp' = gp := by
        rw [hgp] at hgp'
        exact (Option.some.inj hgp').symm
      subst hgpe
      have hrec : reconstruct cf (fuel + 1) p =
          reconstruct cf fuel prev ++ [p] := by
        simp [reconstruct, hprev]
      have hedge' : p ∈ get_neighbors g prev := hedge p prev hprev
      refine ⟨fun h => absurd h hps, fun _ => ?_⟩
      rw [hrec]
      have := ih prev gq hgq (by omega)
      by_cases hprevs : prev = s
      · rw [this.1 hprevs]
        subst hprevs
        refine ⟨by simp, ?_, by simp⟩
        simp only [List.nil_append]
        exact List.chain'_cons.2 ⟨hedge', List.chain'_singleton p⟩
      · obtain ⟨hne, hch, hlast⟩ := this.2 hprevs
        refine ⟨by simp, ?_, by rw [List.getLast?_concat]⟩
        have hchain2 : List.Chain' (fun a b => b ∈ get_neighbors g a)
            ((s :: reconstruct cf fuel prev) ++ [p]) := by
          apply List.Chain'.append hch (List.chain'_singleton p)
          intro x hx y hy
          simp at hy
          rw [getLast_cons_ne_nil s hne, hlast] at hx
          simp at hx
          rw [← hx, ← hy]
          exact hedge'
        simpa using hchain2

theorem astar_complete_aux (g : Grid) (s e : Pos) :
    ∀ (fuel : Nat) (st : AState), AInv g s e st → Reach g s e → s ≠ e →
      aMeasure g st < fuel → (astarLoop g e fuel st).1 ≠ [] := by
  intro fuel
  induction fuel with
  | zero => intro st _ _ _ h; omega
  | succ fuel ih =>
    intro st hinv hre hse hf
    cases hpop : popMin st.openSet with
    | none =>
      exfalso
      have hempty : st.openSet = [] := (popMin_none_iff _).1 hpop
      have hcl : ∀ p, (alookup st.gScore p).isSome → p ∈ st.closed := by
        intro p hp
        rcases hinv.g_split p hp with h | h
        · rw [hempty] at h
          simp [containsPos] at h
        · exact h
      have hall : ∀ p, Reach g s p → (alookup st.gScore p).isSome := by
        intro p hr
        induction hr with
        | refl => simp [hinv.start_zero]
        | tail _ hstep ihh =>
          exact hinv.scanned _ (hcl _ ihh) _ hstep
      exact hinv.e_closed (hcl e (hall e hre))
    | some fcrest =>
      obtain ⟨⟨f, cur⟩, rest⟩ := fcrest
      by_cases hce : cur = e
      · have hres : (astarLoop g e (fuel + 1) st).1 =
            reconstruct st.cameFrom (st.cameFrom.length + 1) cur := by
          simp [astarLoop, hpop, hce]
        rw [hres]
        have hkey : (alookup st.gScore cur).isSome :=
          hinv.open_sub (f, cur) (popMin_mem hpop)
        have hcfk : (alookup st.cameFrom cur).isSome :=
          (hinv.cf_iff cur).2 ⟨hkey, fun h => hse (h.symm.trans hce)⟩
        obtain ⟨prev, hprev⟩ := Option.isSome_iff_exists.1 hcfk
        simp [reconstruct, hprev]
      · have hres : (astarLoop g e (fuel + 1) st).1 =
            (astarLoop g e fuel
              ((get_neighbors g cur).foldl (relaxOne g e cur)
                { st with openSet := rest, pops := st.pops ++ [(f, cur)], closed := cur :: st.closed })).1 := by
          simp [astarLoop, hpop, hce]
        rw [hres]
        obtain ⟨hinv', hms⟩ := astar_step g s e hinv hpop hce
        exact ih _ hinv' hre hse (by omega)

theorem astar_sound_aux (g : Grid) (s e : Pos) :
    ∀ (fuel : Nat) (st : AState), AInv g s e st →
      (astarLoop g e fuel st).1 ≠ [] →
      List.Chain' (fun a b => b ∈ get_neighbors g a)
        (s :: (astarLoop g e fuel st).1) ∧
      ((astarLoop g e fuel st).1).getLast? = some e := by
  intro fuel
  induction fuel with
  | zero => intro st _ h; simp [astarLoop] at h
  | succ fuel ih =>
    intro st hinv hne
    cases hpop : popMin st.openSet with
    | none => rw [show (astarLoop g e (fuel + 1) st).1 = [] by
        simp [astarLoop, hpop]] at hne; exact absurd rfl hne
    | some fcrest =>
      obtain ⟨⟨f, cur⟩, rest⟩ := fcrest
      by_cases hce : cur = e
      · have hres : (astarLoop g e (fuel + 1) st).1 =
            reconstruct st.cameFrom (st.cameFrom.length + 1) cur := by
          simp [astarLoop, hpop, hce]
        rw [hres] at hne ⊢
        have hkey : (alookup st.gScore cur).isSome :=
          hinv.open_sub (f, cur) (popMin_mem hpop)
        obtain ⟨ge, hge⟩ := Option.isSome_iff_exists.1 hkey
        have hspec := reconstruct_spec g s st.cameFrom st.gScore
          hinv.cf_iff hinv.cf_edge hinv.cf_lt
          (st.cameFrom.length + 1) cur ge hge
          (by have := hinv.g_bound cur ge hge; omega)
        by_cases hcs : cur = s
        · exact absurd (hspec.1 hcs) hne
        · obtain ⟨-, hch, hlast⟩ := hspec.2 hcs
          rw [← hce]
          exact ⟨hch, hlast⟩
      · have hres : (astarLoop g e (fuel + 1) st).1 =
            (astarLoop g e fuel
              ((get_neighbors g cur).foldl (relaxOne g e cur)
                { st with openSet := rest, pops := st.pops ++ [(f, cur)], closed := cur :: st.closed })).1 := by
          simp [astarLoop, hpop, hce]
        rw [hres] at hne ⊢
        obtain ⟨hinv', -⟩ := astar_step g s e hinv hpop hce
        exact ih _ hinv' hne

theorem initA_inv (g : Grid) (s e : Pos) : AInv g s e (initAState s e) := by
  constructor
  · simp [initAState, alookup]
  · intro fp hfp
    simp [initAState] at hfp
    subst hfp
    simp [alookup]
  · intro p hp
    simp only [initAState] at hp ⊢
    by_cases hps : p = s
    · subst hps
      left
      simp [containsPos]
    · exfalso
      rw [show alookup [(s, 0)] p = none by simp [alookup, hps]] at hp
      simp at hp
  · intro p hp
    simp [initAState] at hp
  · simp [initAState]
  · intro p
    simp only [initAState]
    constructor
    · intro h
      simp [alookup] at h
    · intro ⟨h1, h2⟩
      exfalso
      rw [show alookup [(s, 0)] p = none by simp [alookup, h2]] at h1
      simp at h1
  · intro p q hq
    simp [initAState, alookup] at hq
  · intro p q hq
    simp [initAState, alookup] at hq
  · intro p hp m hm
    simp [initAState] at hp
  · intro p hp
    simp only [initAState] at hp
    by_cases hps : p = s
    · exact Or.inl hps
    · exfalso
      rw [show alookup [(s, 0)] p = none by simp [alookup, hps]] at hp
      simp at hp
  · intro p hp
    simp only [initAState] at hp
    by_cases hps : p = s
    · exact hps ▸ Relation.ReflTransGen.refl
    · exfalso
      rw [show alookup [(s, 0)] p = none by simp [alookup, hps]] at hp
      simp at hp
  · intro p gp hgp
    simp only [initAState] at hgp ⊢
    by_cases hps : p = s
    · subst hps
      rw [show alookup [(p, 0)] p = some 0 by simp [alookup]] at hgp
      simp at hgp
      simp [hgp]
    · rw [show alookup [(s, 0)] p = none by simp [alookup, hps]] at hgp
      simp at hgp

theorem initA_measure (g : Grid) (s e : Pos) :
    aMeasure g (initAState s e) < g.width.toNat * g.height.toNat + 2 := by
  unfold aMeasure
  simp only [initAState, List.length_cons, List.length_nil]
  have h1 : ((allValid g).filter fun p => alookup [(s, 0)] p = none).card ≤
      (allValid g).card := Finset.card_filter_le _ _
  have h2 := allValid_card_le g
  omega

theorem find_path_eq (g : Grid) (s e : Pos) (hse : s ≠ e) :
    find_path g s e = (astarLoop g e
      (g.width.toNat * g.height.toNat + 2) (initAState s e)).1 := by
  simp [find_path, find_path_run, hse]

theorem find_path_ne_nil_iff (g : Grid) (s e : Pos) :
    find_path g s e ≠ [] ↔ Reach g s e := by
  by_cases hse : s = e
  · subst hse
    constructor
    · intro _
      exact Relation.ReflTransGen.refl
    · intro _
      simp [find_path, find_path_run]
  · rw [find_path_eq g s e hse]
    constructor
    · intro h
      obtain ⟨hch, hlast⟩ := astar_sound_aux g s e _ _ (initA_inv g s e) h
      set l := (astarLoop g e
        (g.width.toNat * g.height.toNat + 2) (initAState s e)).1
      have := chain_reachN g l s e hch hlast
      exact (reach_iff_reachN g s e).2 ⟨l.length, this⟩
    · intro hre
      exact astar_complete_aux g s e _ _ (initA_inv g s e) hre hse
        (initA_measure g s e)

theorem find_path_chain_spec (g : Grid) (s e : Pos) (hse : s ≠ e)
    (h : find_path g s e ≠ []) :
    List.Chain' (fun a b => b ∈ get_neighbors g a) (s :: find_path g s e) ∧
      (find_path g s e).getLast? = some e := by
  rw [find_path_eq g s e hse] at h ⊢
  exact astar_sound_aux g s e _ _ (initA_inv g s e) h

/-! ### Trace lemmas for the tie-breaking analysis -/

theorem relaxOne_pops_eq (g : Grid) (e cur : Pos) (st : AState) (n : Pos) :
    (relaxOne g e cur st n).pops = st.pops := by
  unfold relaxOne
  dsimp only
  split_ifs <;> rfl

theorem relaxOne_open_mono (g : Grid) (e cur : Pos) (st : AState) (n : Pos)
    {x : Nat × Pos} (hx : x ∈ st.openSet) :
    x ∈ (relaxOne g e cur st n).openSet := by
  unfold relaxOne
  dsimp only
  split_ifs <;>
    first
      | exact hx
      | exact List.mem_append.2 (Or.inl hx)

theorem relaxFold_pops (g : Grid) (e cur : Pos) :
    ∀ (L : List Pos) (st : AState),
      (L.foldl (relaxOne g e cur) st).pops = st.pops := by
  intro L
  induction L with
  | nil => intro st; rfl
  | cons n L ih =>
    intro st
    rw [List.foldl_cons, ih, relaxOne_pops_eq]

theorem relaxFold_open_mono (g : Grid) (e cur : Pos) :
    ∀ (L : List Pos) (st : AState) (x : Nat × Pos), x ∈ st.openSet →
      x ∈ (L.foldl (relaxOne g e cur) st).openSet := by
  intro L
  induction L with
  | nil => intro st x hx; exact hx
  | cons n L ih =>
    intro st x hx
    rw [List.foldl_cons]
    exact ih _ x (relaxOne_open_mono g e cur st n hx)

theorem astarLoop_pops_extend (g : Grid) (e : Pos) :
    ∀ (fuel : Nat) (st : AState),
      ∃ tail, ((astarLoop g e fuel st).2).pops = st.pops ++ tail := by
  intro fuel
  induction fuel with
  | zero => intro st; exact ⟨[], by simp [astarLoop]⟩
  | succ fuel ih =>
    intro st
    cases hpop : popMin st.openSet with
    | none => exact ⟨[], by simp [astarLoop, hpop]⟩
    | some fcrest =>
      obtain ⟨x, rest⟩ := fcrest
      by_cases hce : x.2 = e
      · exact ⟨[x], by simp [astarLoop, hpop, hce]⟩
      · obtain ⟨tail, htail⟩ := ih
          ((get_neighbors g x.2).foldl (relaxOne g e x.2)
            { st with openSet := rest, pops := st.pops ++ [x], closed := x.2 :: st.closed })
        refine ⟨x :: tail, ?_⟩
        rw [show (astarLoop g e (fuel + 1) st).2 =
          (astarLoop g e fuel
            ((get_neighbors g x.2).foldl (relaxOne g e x.2)
              { st with openSet := rest, pops := st.pops ++ [x], closed := x.2 :: st.closed })).2 by
          simp [astarLoop, hpop, hce]]
        rw [htail, relaxFold_pops]
        simp

theorem mem_pre_of_decomp {α : Type} :
    ∀ (l' tail pre post : List α) (a x : α),
      l' ++ tail = pre ++ a :: post → a ∉ l' → x ∈ l' → x ∈ pre := by
  intro l'
  induction l' with
  | nil => intro tail pre post a x _ _ hx; simp at hx
  | cons b l'' ih =>
    intro tail pre post a x heq ha hx
    cases pre with
    | nil =>
      simp at heq
      exact absurd (heq.1 ▸ List.mem_cons_self b l'') ha
    | cons c pre' =>
      simp only [List.cons_append, List.cons.injEq] at heq
      rcases List.mem_cons.1 hx with h | h
      · rw [h, heq.1]
        exact List.mem_cons_self c pre'
      · exact List.mem_cons_of_mem c
          (ih tail pre' post a x heq.2
            (fun hm => ha (List.mem_cons_of_mem b hm)) h)

theorem astar_tie_break (g : Grid) (e : Pos) :
    ∀ (fuel : Nat) (st : AState) (f : Nat) (p q : Pos),
      (f, p) ∈ st.openSet → (f, q) ∈ st.openSet → posLexLt p q →
      (f, p) ∉ st.pops → (f, q) ∉ st.pops →
      ∀ pre post,
        ((astarLoop g e fuel st).2).pops = pre ++ (f, q) :: post →
        (f, p) ∈ pre := by
  intro fuel
  induction fuel with
  | zero =>
    intro st f p q hp hq hlt hpp hqp pre post hdec
    simp only [astarLoop] at hdec
    exact absurd
      (hdec ▸ List.mem_append.2 (Or.inr (List.mem_cons_self _ _))) hqp
  | succ fuel ih =>
    intro st f p q hp hq hlt hpp hqp pre post hdec
    have hpq : p ≠ q := by
      intro heq
      subst heq
      unfold posLexLt at hlt
      omega
    cases hpop : popMin st.openSet with
    | none =>
      rw [(popMin_none_iff _).1 hpop] at hp
      simp at hp
    | some fcrest =>
      obtain ⟨x, rest⟩ := fcrest
      have hxmin := popMin_min hpop
      have hxq : x ≠ (f, q) := by
        intro hx
        have hmin := hxmin (f, p) hp
        rw [hx] at hmin
        have htrue : pairLt (f, p) (f, q) = true := by
          rw [pairLt_iff]
          unfold posLexLt at hlt
          simp
          omega
        rw [htrue] at hmin
        exact absurd hmin (by simp)
      by_cases hce : x.2 = e
      · have hps : ((astarLoop g e (fuel + 1) st).2).pops =
            st.pops ++ [x] := by
          simp [astarLoop, hpop, hce]
        rw [hps] at hdec
        have hmemq : (f, q) ∈ st.pops ++ [x] :=
          hdec ▸ List.mem_append.2 (Or.inr (List.mem_cons_self _ _))
        rcases List.mem_append.1 hmemq with h | h
        · exact absurd h hqp
        · simp at h
          exact absurd h.symm hxq
      · have hps : (astarLoop g e (fuel + 1) st).2 =
            (astarLoop g e fuel
              ((get_neighbors g x.2).foldl (relaxOne g e x.2)
                { st with openSet := rest, pops := st.pops ++ [x], closed := x.2 :: st.closed })).2 := by
          simp [astarLoop, hpop, hce]
        rw [hps] at hdec
        set stnext := (get_neighbors g x.2).foldl (relaxOne g e x.2)
          { st with openSet := rest, pops := st.pops ++ [x], closed := x.2 :: st.closed } with hstn
        have hsp : stnext.pops = st.pops ++ [x] := by
          rw [hstn, relaxFold_pops]
        by_cases hxp : x = (f, p)
        · obtain ⟨tail, htail⟩ := astarLoop_pops_extend g e fuel stnext
          rw [htail, hsp, hxp] at hdec
          refine mem_pre_of_decomp (st.pops ++ [(f, p)]) tail pre post
            (f, q) (f, p) hdec ?_ ?_
          · intro hm
            rcases List.mem_append.1 hm with h | h
            · exact hqp h
            · simp at h
              exact hpq h.symm
          · exact List.mem_append.2 (Or.inr (List.mem_cons_self _ _))
        · have hpr : (f, p) ∈ rest :=
            mem_rest_of_popMin hpop hp (fun h => hxp h.symm)
          have hqr : (f, q) ∈ rest :=
            mem_rest_of_popMin hpop hq (fun h => hxq h.symm)
          have hpo : (f, p) ∈ stnext.openSet := by
            rw [hstn]
            exact relaxFold_open_mono g e x.2 _ _ (f, p) hpr
          have hqo : (f, q) ∈ stnext.openSet := by
            rw [hstn]
            exact relaxFold_open_mono g e x.2 _ _ (f, q) hqr
          have hppn : (f, p) ∉ stnext.pops := by
            rw [hsp]
            intro hm
            rcases List.mem_append.1 hm with h | h
            · exact hpp h
            · simp at h
              exact hxp h.symm
          have hqpn : (f, q) ∉ stnext.pops := by
            rw [hsp]
            intro hm
            rcases List.mem_append.1 hm with h | h
            · exact hqp h
            · simp at h
              exact hxq h.symm
          exact ih stnext f p q hpo hqo hlt hppn hqpn pre post hdec

/-! ### Helpers for the pursuer-update theorems -/

theorem find_path_head_mem (g : Grid) (s e : Pos) (hse : s ≠ e)
    {p : Pos} {l : List Pos} (h : find_path g s e = p :: l) :
    p ∈ get_neighbors g s := by
  have hne : find_path g s e ≠ [] := by simp [h]
  have hch := (find_path_chain_spec g s e hse hne).1
  rw [h] at hch
  exact (List.chain'_cons.1 hch).1

theorem find_path_nil_of_isolated (g : Grid) (s e : Pos) (hse : s ≠ e)
    (hn : get_neighbors g s = []) : find_path g s e = [] := by
  by_contra hne
  have hre := (find_path_ne_nil_iff g s e).1 hne
  rcases Relation.ReflTransGen.cases_head hre with h | ⟨c, hc, -⟩
  · exact hse h
  · simp only [adjStep, hn] at hc
    simp at hc

theorem is_path_exists_false_iff (g : Grid) (s e : Pos) :
    is_path_exists g s e = false ↔ ¬ Reach g s e := by
  rw [← is_path_exists_iff_reach]
  cases h : is_path_exists g s e <;> simp

theorem randChoice_mem (m : Pos) (rest : List Pos) (d : Pos) (r : Nat) :
    randChoice (m :: rest) d r ∈ m :: rest := by
  unfold randChoice
  have hlen : r % (m :: rest).length < (m :: rest).length :=
    Nat.mod_lt _ (by simp)
  rw [List.getD_eq_get _ d hlen]
  exact List.get_mem _ _ _

theorem greedy_moves_spec (g : Grid) :
    ∀ x ∈ greedy_moves g,
      is_valid_move g x = true ∧ isCardinalAdjacent g.ai_pos x := by
  intro x hx
  unfold greedy_moves at hx
  rcases List.mem_append.1 hx with h | h <;>
    split_ifs at h with h1 h2 h3 <;> simp at h <;> subst h <;>
      refine ⟨by assumption, ?_⟩ <;> unfold isCardinalAdjacent <;> omega

/-! ### The claims -/

/-- C1: for every grid produced by generation (any width and height at
least 2, any obstacle target — hence any of the three difficulty
densities — and any stream of random samples), immediately after
`generate_grid` returns, `is_path_exists(player_pos, goal_pos)` is
true. -/
theorem claim_C1_generation_solvable (w h : Int) (target : Nat)
    (samples : List Pos) (hw : 2 ≤ w) (hh : 2 ≤ h) :
    is_path_exists (generate_grid w h target samples)
      (generate_grid w h target samples).player_pos
      (generate_grid w h target samples).goal_pos = true := by
  unfold generate_grid
  apply genLoop_path
  rw [is_path_exists_iff_reach]
  exact initGrid_reach w h (by omega) (by omega)

/-- Witness for C1 at a concrete 2 by 2 grid and sample stream. -/
theorem claim_C1_witness :
    is_path_exists (generate_grid 2 2 1 [(1, 1), (0, 1)])
      (generate_grid 2 2 1 [(1, 1), (0, 1)]).player_pos
      (generate_grid 2 2 1 [(1, 1), (0, 1)]).goal_pos = true :=
  claim_C1_generation_solvable 2 2 1 [(1, 1), (0, 1)] (by decide) (by decide)

/-- C2 as stated is false: on the 5 by 4 grid `cexGridC2` with obstacles
at (1,1), (1,2), (3,2), the BFS shortest-path distance from (4,2) to
(0,2) is 6, but `find_path` returns a path of length 8 (the open-set
membership guard skips re-pushing an improved node, so A* can pop the
target with a stale, sub-optimal route). -/
theorem claim_C2_counterexample : ¬ C2Claim cexGridC2 (4, 2) (0, 2) := by
  intro h
  have hdist : IsShortestDistance cexGridC2 (4, 2) (0, 2) 6 := by
    unfold IsShortestDistance
    exact ⟨by decide, by decide⟩
  have hlen := h.2 6 hdist (by decide)
  have h8 : (find_path cexGridC2 (4, 2) (0, 2)).length = 8 := by decide
  omega

/-- C2 (amended): `find_path(a, b)` returns an empty sequence iff
`is_path_exists(a, b)` is false; when the sequence is non-empty its
length is at least the BFS shortest-path distance from `a` to `b`, but
may strictly exceed it. -/
theorem claim_C2_amended (g : Grid) (a b : Pos) :
    (find_path g a b = [] ↔ is_path_exists g a b = false) ∧
      (∀ n, IsShortestDistance g a b n → find_path g a b ≠ [] →
        n ≤ (find_path g a b).length) := by
  constructor
  · constructor
    · intro h
      rw [is_path_exists_false_iff]
      intro hre
      exact (find_path_ne_nil_iff g a b).2 hre h
    · intro h
      by_contra hne
      exact absurd ((find_path_ne_nil_iff g a b).1 hne)
        ((is_path_exists_false_iff g a b).1 h)
  · intro n hn hne
    by_cases hab : a = b
    · subst hab
      have h0 : ReachN g 0 a a := rfl
      have hle := shortest_le_of_reachN hn h0
      have hfp : find_path g a a = [a] := by simp [find_path, find_path_run]
      rw [hfp]
      simp
      omega
    · obtain ⟨hch, hlast⟩ := find_path_chain_spec g a b hab hne
      exact shortest_le_of_reachN hn
        (chain_reachN g (find_path g a b) a b hch hlast)

/-- Witness for the amended C2 on a concrete grid and pair. -/
theorem claim_C2_amended_witness :
    1 ≤ (find_path emptyGrid3 (0, 0) (1, 0)).length :=
  (claim_C2_amended emptyGrid3 (0, 0) (1, 0)).2 1
    ⟨by decide, by decide⟩ (by decide)

/-- C3: `find_path(start, end)` returns exactly `[start]` when
`start = end`; otherwise, when a path exists it returns a non-empty
sequence that begins at a cell adjacent to `start`, ends at `end`, and
whose consecutive elements are cardinally adjacent non-obstacle cells;
otherwise it returns the empty sequence. -/
theorem claim_C3_find_path_structure (g : Grid) (s t : Pos) :
    (s = t → find_path g s t = [s]) ∧
      (s ≠ t → is_path_exists g s t = true →
        find_path g s t ≠ [] ∧
          List.Chain'
            (fun a b => isCardinalAdjacent a b ∧ is_valid_move g b = true)
            (s :: find_path g s t) ∧
          (find_path g s t).getLast? = some t) ∧
      (s ≠ t → is_path_exists g s t = false → find_path g s t = []) := by
  refine ⟨?_, ?_, ?_⟩
  · intro h
    subst h
    simp [find_path, find_path_run]
  · intro hse hpe
    have hre := (is_path_exists_iff_reach g s t).1 hpe
    have hnn := (find_path_ne_nil_iff g s t).2 hre
    obtain ⟨hch, hlast⟩ := find_path_chain_spec g s t hse hnn
    refine ⟨hnn, ?_, hlast⟩
    exact hch.imp fun a b hab =>
      ⟨adj_of_mem_get_neighbors hab, valid_of_mem_get_neighbors hab⟩
  · intro hse hpe
    by_contra hnn
    exact absurd ((find_path_ne_nil_iff g s t).1 hnn)
      ((is_path_exists_false_iff g s t).1 hpe)

/-- Witness for C3 on a concrete grid and pair. -/
theorem claim_C3_witness :
    find_path emptyGrid3 (0, 0) (1, 1) ≠ [] ∧
      List.Chain'
        (fun a b => isCardinalAdjacent a b ∧
          is_valid_move emptyGrid3 b = true)
        ((0, 0) :: find_path emptyGrid3 (0, 0) (1, 1)) ∧
      (find_path emptyGrid3 (0, 0) (1, 1)).getLast? = some (1, 1) :=
  (claim_C3_find_path_structure emptyGrid3 (0, 0) (1, 1)).2.1
    (by decide) (by decide)

/-- C4 as stated is false: in the `find_path` run on the obstacle-free
3 by 3 grid from (1,1) to (2,2), the entries `(2, (2,1))` and
`(2, (1,2))` are pushed with equal f-score 2 in that order, yet (1,2) is
popped before (2,1): `heapq` breaks ties by the position tuple, not by
insertion order. -/
theorem claim_C4_counterexample :
    ¬ C4DiscoveryOrder emptyGrid3 (1, 1) (2, 2) := by
  unfold C4DiscoveryOrder
  decide

/-- C4 (amended): whenever two candidates with equal f-score sit in the
A* priority structure together, the one whose position is
lexicographically smaller (Python tuple comparison of `(x, y)`) is
processed first — not the one discovered first.  Stated on the loop: if
`(f, p)` and `(f, q)` are both in the open set, `p` lexicographically
below `q`, and neither has been popped yet, then in the pop trace of the
remaining run `(f, q)` is only ever popped after `(f, p)`. -/
theorem claim_C4_amended (g : Grid) (e : Pos) (fuel : Nat) (st : AState)
    (f : Nat) (p q : Pos) (hp : (f, p) ∈ st.openSet)
    (hq : (f, q) ∈ st.openSet) (hlt : posLexLt p q)
    (hpp : (f, p) ∉ st.pops) (hqp : (f, q) ∉ st.pops) :
    ∀ pre post,
      ((astarLoop g e fuel st).2).pops = pre ++ (f, q) :: post →
      (f, p) ∈ pre :=
  astar_tie_break g e fuel st f p q hp hq hlt hpp hqp

/-- Witness for the amended C4 at a concrete state: from an open set
holding `(2, (2,1))` and `(2, (1,2))` on a fully blocked grid, the pop
trace is `[(2, (1,2)), (2, (2,1))]` and the theorem places `(2, (1,2))`
in the prefix before `(2, (2,1))`. -/
theorem claim_C4_amended_witness :
    ((2 : Nat), ((1 : Int), (2 : Int))) ∈
      [((2 : Nat), ((1 : Int), (2 : Int)))] :=
  claim_C4_amended blockedGrid3 (9, 9) 3
    { openSet := [(2, (2, 1)), (2, (1, 2))], cameFrom := [], gScore := [],
      fScore := [], closed := [], pops := [], pushes := [] }
    2 (1, 2) (2, 1) (by decide) (by decide) (Or.inl (by decide))
    (by decide) (by decide) [(2, (1, 2))] [] (by decide)

/-- C5: `get_neighbors(pos)` is exactly the valid entries of the
candidate list up, right, down, left in that fixed order, and every
returned coordinate is in bounds, not an obstacle, and cardinally
adjacent to `pos` (hence never diagonal). -/
theorem claim_C5_neighbors_spec (g : Grid) (p : Pos) :
    get_neighbors g p =
      List.filter (fun q => is_valid_move g q)
        [(p.1, p.2 - 1), (p.1 + 1, p.2), (p.1, p.2 + 1), (p.1 - 1, p.2)] ∧
      ∀ q ∈ get_neighbors g p,
        (0 ≤ q.1 ∧ q.1 < g.width ∧ 0 ≤ q.2 ∧ q.2 < g.height) ∧
          g.obstacle q = false ∧ isCardinalAdjacent p q := by
  refine ⟨get_neighbors_eq_filter g p, fun q hq => ?_⟩
  have hv := (is_valid_move_iff g q).1 (valid_of_mem_get_neighbors hq)
  exact ⟨⟨hv.1, hv.2.1, hv.2.2.1, hv.2.2.2.1⟩, hv.2.2.2.2,
    adj_of_mem_get_neighbors hq⟩

/-- Witness for C5 on a concrete grid, position and neighbour. -/
theorem claim_C5_witness :
    (0 ≤ ((1, 0) : Pos).1 ∧ ((1, 0) : Pos).1 < emptyGrid3.width ∧
        0 ≤ ((1, 0) : Pos).2 ∧ ((1, 0) : Pos).2 < emptyGrid3.height) ∧
      emptyGrid3.obstacle (1, 0) = false ∧
      isCardinalAdjacent (0, 0) (1, 0) :=
  (claim_C5_neighbors_spec emptyGrid3 (0, 0)).2 (1, 0) (by decide)

/-- C6: if the pursuer already sits on the player when `move_ai` is
invoked, it signals capture and the pursuer position is unchanged. -/
theorem claim_C6_captured_in_place (g : Grid) (r1 r2 : Nat)
    (h : g.ai_pos = g.player_pos) :
    move_ai g r1 r2 = (MoveOutcome.captured, g) := by
  unfold move_ai
  rw [if_pos h]

/-- Witness for C6 on a concrete grid. -/
theorem claim_C6_witness :
    move_ai { emptyGrid3 with ai_pos := (0, 2), player_pos := (0, 2) } 0 0 =
      (MoveOutcome.captured,
        { emptyGrid3 with ai_pos := (0, 2), player_pos := (0, 2) }) :=
  claim_C6_captured_in_place _ 0 0 (by decide)

/-- C7: when the pursuer differs from the player but has no valid
neighbour at all, `move_ai` signals a stall and leaves the grid (hence
the pursuer position) unchanged. -/
theorem claim_C7_stalled_when_boxed_in (g : Grid) (r1 r2 : Nat)
    (hne : g.ai_pos ≠ g.player_pos)
    (hn : get_neighbors g g.ai_pos = []) :
    move_ai g r1 r2 = (MoveOutcome.stalled, g) := by
  have hfp : find_path g g.ai_pos g.player_pos = [] :=
    find_path_nil_of_isolated g _ _ hne hn
  have hfil := get_neighbors_eq_filter g g.ai_pos
  rw [hn] at hfil
  have hval := List.filter_eq_nil.1 hfil.symm
  have hv1 : is_valid_move g (g.ai_pos.1 + 1, g.ai_pos.2) = false :=
    Bool.eq_false_iff.2 (hval _ (by simp))
  have hv2 : is_valid_move g (g.ai_pos.1 - 1, g.ai_pos.2) = false :=
    Bool.eq_false_iff.2 (hval _ (by simp))
  have hv3 : is_valid_move g (g.ai_pos.1, g.ai_pos.2 + 1) = false :=
    Bool.eq_false_iff.2 (hval _ (by simp))
  have hv4 : is_valid_move g (g.ai_pos.1, g.ai_pos.2 - 1) = false :=
    Bool.eq_false_iff.2 (hval _ (by simp))
  have hgm : greedy_moves g = [] := by
    unfold greedy_moves
    simp [hv1, hv2, hv3, hv4]
  unfold move_ai
  rw [if_neg hne, hfp, hgm, hn]

/-- Witness for C7: a 1 by 1 grid whose single cell holds the pursuer
(no neighbour is in bounds) while the player is recorded elsewhere. -/
theorem claim_C7_witness :
    move_ai { width := 1, height := 1, obstacle := fun _ => false,
              player_pos := (5, 5), ai_pos := (0, 0),
              goal_pos := (0, 0) } 0 0 =
      (MoveOutcome.stalled,
        { width := 1, height := 1, obstacle := fun _ => false,
          player_pos := (5, 5), ai_pos := (0, 0), goal_pos := (0, 0) }) :=
  claim_C7_stalled_when_boxed_in _ 0 0 (by decide) (by decide)

/-- C8: on the obstacle-free 10 by 10 grid with the pursuer at (9,9) and
the player at (0,0), one `move_ai` call signals Moved and puts the
pursuer on (8,9) or (9,8) — concretely, on (8,9) — for every random
seed. -/
theorem claim_C8_open_grid_first_step (r1 r2 : Nat) :
    (move_ai emptyGrid10 r1 r2).1 = MoveOutcome.moved ∧
      ((move_ai emptyGrid10 r1 r2).2.ai_pos = (8, 9) ∨
        (move_ai emptyGrid10 r1 r2).2.ai_pos = (9, 8)) :=
  ⟨rfl, Or.inl rfl⟩

/-- C9: grid construction fails, surfacing an error to the caller, for
every call with non-positive width or height (the `cells[0][0]` access in
`generate_grid` raises an uncaught IndexError); and no call can carry an
obstacle density outside `[0, 1)`, since the constructor takes one of
three difficulties whose densities all lie in `[0, 1)`. -/
theorem claim_C9_construction_fails (w h : Int) (target : Nat)
    (samples : List Pos) (hwh : w ≤ 0 ∨ h ≤ 0) :
    (∃ msg, gridInit w h target samples = Except.error msg) ∧
      ∀ d : Difficulty,
        0 ≤ obstacle_percentage d ∧ obstacle_percentage d < 1 := by
  constructor
  · by_cases hw : w ≤ 0
    · exact ⟨"IndexError: list index out of range", by simp [gridInit, hw]⟩
    · have hh : h ≤ 0 := by omega
      exact ⟨"IndexError: list index out of range",
        by simp [gridInit, hw, hh]⟩
  · intro d
    cases d <;> constructor <;> norm_num [obstacle_percentage]

/-- Witness for C9 at width 0. -/
theorem claim_C9_witness :
    ∃ msg, gridInit 0 5 3 [] = Except.error msg :=
  (claim_C9_construction_fails 0 5 3 [] (Or.inl (by decide))).1

/-- C10 (implicit invariant): if the pursuer position is in bounds and
non-obstacle before `move_ai`, then afterwards it is still in bounds and
non-obstacle, and it is either unchanged or cardinally adjacent to its
previous value — for every grid and every random seed. -/
theorem claim_C10_pursuer_step_invariant (g : Grid) (r1 r2 : Nat)
    (hv : is_valid_move g g.ai_pos = true) :
    is_valid_move g (move_ai g r1 r2).2.ai_pos = true ∧
      ((move_ai g r1 r2).2.ai_pos = g.ai_pos ∨
        isCardinalAdjacent g.ai_pos (move_ai g r1 r2).2.ai_pos) := by
  by_cases hpe : g.ai_pos = g.player_pos
  · rw [show move_ai g r1 r2 = (MoveOutcome.captured, g) by
      unfold move_ai; rw [if_pos hpe]]
    exact ⟨hv, Or.inl rfl⟩
  · cases hfp : find_path g g.ai_pos g.player_pos with
    | cons p0 l =>
      have hp0 := find_path_head_mem g _ _ hpe hfp
      have hres : (move_ai g r1 r2).2.ai_pos = p0 := by
        unfold move_ai
        rw [if_neg hpe, hfp]
      rw [hres]
      exact ⟨valid_of_mem_get_neighbors hp0,
        Or.inr (adj_of_mem_get_neighbors hp0)⟩
    | nil =>
      cases hgm : greedy_moves g with
      | cons m l =>
        have hc : randChoice (m :: l) m r1 ∈ greedy_moves g := by
          rw [hgm]
          exact randChoice_mem m l m r1
        have hspec := greedy_moves_spec g _ hc
        have hres : (move_ai g r1 r2).2.ai_pos =
            randChoice (m :: l) m r1 := by
          unfold move_ai
          rw [if_neg hpe, hfp, hgm]
        rw [hres]
        exact ⟨hspec.1, Or.inr hspec.2⟩
      | nil =>
        cases hgn : get_neighbors g g.ai_pos with
        | cons n l =>
          have hc : randChoice (n :: l) n r2 ∈ get_neighbors g g.ai_pos := by
            rw [hgn]
            exact randChoice_mem n l n r2
          have hres : (move_ai g r1 r2).2.ai_pos =
              randChoice (n :: l) n r2 := by
            unfold move_ai
            rw [if_neg hpe, hfp, hgm, hgn]
          rw [hres]
          exact ⟨valid_of_mem_get_neighbors hc,
            Or.inr (adj_of_mem_get_neighbors hc)⟩
        | nil =>
          rw [show move_ai g r1 r2 = (MoveOutcome.stalled, g) by
            unfold move_ai; rw [if_neg hpe, hfp, hgm, hgn]]
          exact ⟨hv, Or.inl rfl⟩

/-- Witness for C10 on a concrete grid and seeds. -/
theorem claim_C10_witness :
    is_valid_move emptyGrid3 (move_ai emptyGrid3 0 0).2.ai_pos = true ∧
      ((move_ai emptyGrid3 0 0).2.ai_pos = emptyGrid3.ai_pos ∨
        isCardinalAdjacent emptyGrid3.ai_pos
          (move_ai emptyGrid3 0 0).2.ai_pos) :=
  claim_C10_pursuer_step_invariant emptyGrid3 0 0 (by decide)
